import Mathlib

/-!
# Verification of the positional inverted-index search engine

Shallow embedding of the retrieval core of `src/search.py`:
the `proximity` merge scanner, the `InvertedIndex` data structure
(`_build_index`, `_word_dict`, `_phrase_search`,
`_documents_containing_phrase`, `_not_operator`, `_and_operator`,
`_or_operator`, `_proximity_search`, `_tfidf_term_weighting`,
`ranked_ir_tfidf`, `boolean_query`) and the boolean query parsing loop.

Modelling conventions:
* Python `int` document ids and token positions are `ℤ`.
* Python `set` becomes `Finset ℤ`; python `dict` (and `defaultdict`)
  becomes an insertion-ordered association list, with lookup returning
  the default value for a missing key.  A `defaultdict` read of a
  missing key inserts the default entry, so stateful lookups return the
  updated index alongside their result.
* `np.inf`, the initial value of the proximity minimum, is `Option ℕ`
  with `none` for infinity.
* Operations that would raise an uncaught Python exception
  (`IndexError`, `TypeError` from `set.intersection()` with no
  arguments) return `none` / `Except.error`; `sys.exit` in the query
  parser is `Except.error` as well.
* Iteration over a python `set` (whose order is unobservable in the
  final, sorted results) is modelled as iteration over the
  ascending-sorted list of elements.
* Floating point `np.log10` is modelled as an opaque parameter
  `log10 : ℚ → ℚ`; the scores computed by the ranking engine are `ℚ`.
* The special index key `"_total_document_set"`, which holds metadata
  of a different shape than a posting, is modelled as separate fields
  of the index structure.
-/

/-! ## Section 1D of the source: the `proximity` merge scanner -/

/-- State of the `proximity` scan: `min_proximity` (`none` = `np.inf`)
and the list of minimising `(list_0 element, list_1 element)` pairs. -/
structure ProxState where
  minProx : Option ℕ
  positions : List (ℤ × ℤ)
deriving DecidableEq

/-- One proximity check of `proximity` (source lines 446-463 and their
copies): `cur` was just appended from list `curAdd` (0 or 1), `prev`
was the previously appended element, from list `prevAdd`.  When the two
originate from different lists, their absolute difference competes with
the current minimum. -/
def proxCheck (cur prev : ℤ) (curAdd prevAdd : ℕ) (s : ProxState) : ProxState :=
  if curAdd + prevAdd = 1 then
    let d := (cur - prev).natAbs
    match s.minProx with
    | none => ⟨some d, [if curAdd = 1 then (prev, cur) else (cur, prev)]⟩
    | some m =>
      if d < m then ⟨some d, [if curAdd = 1 then (prev, cur) else (cur, prev)]⟩
      else if d = m then
        ⟨some m, s.positions ++ [if curAdd = 1 then (prev, cur) else (cur, prev)]⟩
      else s
  else s

/-- The `while` loop of `proximity` (source lines 437-540).  The two
list arguments are the unconsumed suffixes of `list_0` and `list_1`.
When one list is exhausted the source processes exactly one further
element of the other list and then leaves the loop (it sets the loop
counter to the total length, resp. `break`s); the skipped tail elements
all come from a single list and would never pass the
different-lists check. -/
def proxLoop : List ℤ → List ℤ → ℤ → ℕ → ProxState → ProxState
  | [], [], _, _, s => s
  | [], y :: _, prev, prevAdd, s => proxCheck y prev 1 prevAdd s
  | x :: _, [], prev, prevAdd, s => proxCheck x prev 0 prevAdd s
  | x :: xs, y :: ys, prev, prevAdd, s =>
    if x ≤ y then proxLoop xs (y :: ys) x 0 (proxCheck x prev 0 prevAdd s)
    else proxLoop (x :: xs) ys y 1 (proxCheck y prev 1 prevAdd s)
termination_by l0 l1 => l0.length + l1.length

/-- `proximity(list_0, list_1)` (source lines 396-544).  The source
unconditionally indexes `list_0[0]` and `list_1[0]` in its starting
edge case; an empty argument raises `IndexError`, modelled as `none`. -/
def proximity : List ℤ → List ℤ → Option (Option ℕ × List (ℤ × ℤ))
  | x :: xs, y :: ys =>
    if x ≤ y then
      let r := proxLoop xs (y :: ys) x 0 ⟨none, []⟩
      some (r.minProx, r.positions)
    else
      let r := proxLoop (x :: xs) ys y 1 ⟨none, []⟩
      some (r.minProx, r.positions)
  | _, _ => none

example : proximity [2, 10] [5, 11] = some (some 1, [(10, 11)]) := by
  simp [proximity, proxLoop, proxCheck]
example : proximity [0, 2] [1, 3] = some (some 1, [(0, 1), (2, 1), (2, 3)]) := by
  simp [proximity, proxLoop, proxCheck]
example : proximity [10] [1, 2, 3] = some (some 7, [(10, 3)]) := by
  simp [proximity, proxLoop, proxCheck]

/-! ## Ascending sorting

Python's `sorted` on integers, as an insertion sort: on lists directly,
and on finite sets through the fold of the underlying multiset (the
insertion operation is left-commutative, so the fold is
well-defined). -/

/-- Insert `x` into `l` before the first element that is not smaller. -/
def insertAsc (x : ℤ) : List ℤ → List ℤ
  | [] => [x]
  | y :: t => if x ≤ y then x :: y :: t else y :: insertAsc x t

theorem insertAsc_comm (x y : ℤ) (l : List ℤ) :
    insertAsc x (insertAsc y l) = insertAsc y (insertAsc x l) := by
  induction l with
  | nil =>
    simp only [insertAsc]
    split_ifs with h1 h2 h2 <;> try rfl
    · have hxy : x = y := le_antisymm h1 h2
      subst hxy; rfl
    · omega
  | cons a t ih =>
    by_cases hya : y ≤ a <;> by_cases hxa : x ≤ a
    · simp only [insertAsc, if_pos hya, if_pos hxa]
      split_ifs with h1 h2 h2 <;> try rfl
      · have hxy : x = y := le_antisymm h1 h2
        subst hxy; rfl
      · omega
    · have hxy : ¬ x ≤ y := by omega
      simp only [insertAsc, if_pos hya, if_neg hxa, if_neg hxy]
    · have hyx : ¬ y ≤ x := by omega
      simp only [insertAsc, if_neg hya, if_pos hxa, if_neg hyx]
    · simp only [insertAsc, if_neg hya, if_neg hxa]
      rw [ih]

instance : LeftCommutative insertAsc := ⟨insertAsc_comm⟩

/-- `sorted` on a list of integers. -/
def sortAsc (l : List ℤ) : List ℤ :=
  l.foldr insertAsc []

/-- `sorted` on a python set of integers: the ascending list of its
elements. -/
def finSortAsc (s : Finset ℤ) : List ℤ :=
  Multiset.foldr insertAsc [] s.val

/-! ## Association-list dictionaries

Python `dict` / `defaultdict(set)` values of the postings are modelled
as insertion-ordered association lists; a read of a missing key yields
the empty set (the `defaultdict` default). -/

/-- `position_dict[d]`, reading `∅` for a missing key. -/
def dictGet : List (ℤ × Finset ℤ) → ℤ → Finset ℤ
  | [], _ => ∅
  | (k, v) :: t, d => if k = d then v else dictGet t d

/-- Store `v` at key `d`: update the existing entry in place, else
append a new entry (python `dict` insertion order). -/
def dictSet : List (ℤ × Finset ℤ) → ℤ → Finset ℤ → List (ℤ × Finset ℤ)
  | [], d, v => [(d, v)]
  | (k, w) :: t, d, v => if k = d then (d, v) :: t else (k, w) :: dictSet t d v

/-- `position_dict[doc_id].add(p)` on a `defaultdict(set)`. -/
def addPos (l : List (ℤ × Finset ℤ)) (d : ℤ) (p : ℤ) : List (ℤ × Finset ℤ) :=
  dictSet l d (insert p (dictGet l d))

/-- Total number of stored positions: the sum of the sizes of the
per-document position sets. -/
def sumCards (l : List (ℤ × Finset ℤ)) : ℕ :=
  (l.map fun kv => kv.2.card).sum

/-! ## Section 2 of the source: the `InvertedIndex` data structure -/

/-- One posting of the inverted index: the value
`{"frequency": int, "document_set": set, "position_dict": defaultdict}`
stored under a term (source line 571). -/
structure Posting where
  frequency : ℕ
  document_set : Finset ℤ
  position_dict : List (ℤ × Finset ℤ)
deriving DecidableEq

/-- The posting a `defaultdict` read creates for a missing term. -/
def defaultPosting : Posting := ⟨0, ∅, []⟩

/-- The `_inverted_index` dictionary.  The special key
`"_total_document_set"` (source line 573), whose value has a different
shape (`{"size": int, "document_set": set}`), is modelled as the two
dedicated fields `total_document_set` and `total_size`. -/
structure InvIndex where
  entries : List (String × Posting)
  total_document_set : Finset ℤ
  total_size : ℕ
deriving DecidableEq

/-- The terms stored in the index (the keys of `_inverted_index`,
apart from the metadata key). -/
def storedTerms (idx : InvIndex) : List String :=
  idx.entries.map fun e => e.1

/-- Read an entry list at a term: the first stored posting under the
term, or the default for a missing term. -/
def lookupEntries : List (String × Posting) → String → Posting
  | [], _ => defaultPosting
  | (k, P) :: t, w => if k = w then P else lookupEntries t w

/-- Read `_inverted_index[word]` without the `defaultdict` insertion:
the stored posting, or the default for a missing term. -/
def lookupPosting (idx : InvIndex) (w : String) : Posting :=
  lookupEntries idx.entries w

/-- `_word_dict(word)` (source lines 656-676): a `defaultdict` read,
which inserts the default posting when the term is missing, followed by
the truthiness test of `word_dict["frequency"]`.  Returns the presence
boolean, the posting and the index after the read. -/
def wordDict (idx : InvIndex) (w : String) : (Bool × Posting) × InvIndex :=
  let P := lookupPosting idx w
  let idx' :=
    if w ∈ storedTerms idx then idx
    else { idx with entries := idx.entries ++ [(w, defaultPosting)] }
  ((P.frequency ≠ 0, P), idx')

/-- Update `_inverted_index[word]` in place (`defaultdict` semantics:
a missing term gets the default posting first). -/
def updateEntry : List (String × Posting) → String → (Posting → Posting) →
    List (String × Posting)
  | [], w, f => [(w, f defaultPosting)]
  | (k, P) :: t, w, f =>
    if k = w then (k, f P) :: t else (k, P) :: updateEntry t w f

/-- The body of the indexing loops (source lines 617-620 and 625-628):
increment the term frequency, add the document to the term's document
set, add the position to the term's per-document position set, and add
the document to the total document set. -/
def addToken (idx : InvIndex) (d : ℤ) (p : ℤ) (w : String) : InvIndex :=
  { idx with
    entries := updateEntry idx.entries w fun P =>
      ⟨P.frequency + 1, insert d P.document_set, addPos P.position_dict d p⟩
    total_document_set := insert d idx.total_document_set }

/-- Index a field's enumerated token list, positions starting at
`offset` (`enumerate` over the split field text). -/
def addTokens (idx : InvIndex) (d : ℤ) (offset : ℕ) : List String → InvIndex
  | [] => idx
  | w :: t => addTokens (addToken idx d (offset : ℤ) w) d (offset + 1) t

/-- One `<DOC>` record, after the external normalizer: its integer
document id, its headline tokens and its body tokens (an absent
`HEADLINE`/`TEXT` element contributes the empty token list). -/
structure Doc where
  doc_id : ℤ
  headline : List String
  text : List String

/-- Index one document (source lines 608-628): headline tokens get
positions `0, 1, ...`; body tokens continue at `headline_length`, the
number of headline tokens (last `enumerate` index plus one). -/
def buildDoc (idx : InvIndex) (doc : Doc) : InvIndex :=
  addTokens (addTokens idx doc.doc_id 0 doc.headline) doc.doc_id
    doc.headline.length doc.text

/-- `_build_index` over the document stream (source lines 578-629),
starting from the empty index created by `__init__`; the stored total
size is set to the cardinality of the total document set at the end
(source line 629). -/
def buildIndex (docs : List Doc) : InvIndex :=
  let idx := docs.foldl buildDoc ⟨[], ∅, 0⟩
  { idx with total_size := idx.total_document_set.card }

/-! ## `_phrase_search` (source lines 678-743)

The phrase matcher receives the normalized word list (the call to
`my_preprocessor`, an external collaborator per the specification, is
the identity at this level). -/

/-- The first loop of `_phrase_search` (lines 694-700): look every word
up via `_word_dict`, returning `False` at the first absent word (the
remaining words are then not looked up). -/
def lookupWords : InvIndex → List String → (Bool × List Posting) × InvIndex
  | idx, [] => ((true, []), idx)
  | idx, w :: ws =>
    let r := wordDict idx w
    if r.1.1 then
      let rest := lookupWords r.2 ws
      ((rest.1.1, r.1.2 :: rest.1.2), rest.2)
    else ((false, []), r.2)

/-- The phrase-start positions pruned away in iteration `i` for
document `d`: for every position `p` of word `i` in `d` such that
`p + 1` is not a position of word `i + 1` in `d`, the start position
`p - i` is discarded (lines 717-723). -/
def removalSet (i : ℕ) (cur next : Posting) (d : ℤ) : Finset ℤ :=
  ((dictGet cur.position_dict d).filter
    fun p => p + 1 ∉ dictGet next.position_dict d).image fun p => p - (i : ℤ)

/-- One iteration of the main loop of `_phrase_search`
(lines 706-733), in a functional rendering of the per-document updates
(the source's iteration order over the candidate set does not affect
the outcome: document updates are independent and the early
`return False, {}` fires exactly when every candidate document's
potential-start set becomes empty).  The state is the candidate
document set together with the potential-start dictionary (whose key
set always equals the candidate set); `none` models the early
`return False, {}`. -/
def phraseStep (i : ℕ) (cur next : Posting)
    (st : Finset ℤ × List (ℤ × Finset ℤ)) :
    Option (Finset ℤ × List (ℤ × Finset ℤ)) :=
  let ds := st.1 ∩ next.document_set
  let pot := st.2.filter fun kv => kv.1 ∈ ds
  let newpot := pot.map fun kv => (kv.1, kv.2 \ removalSet i cur next kv.1)
  let toRemove := ds.filter fun d => dictGet newpot d = ∅
  if ds ≠ ∅ ∧ toRemove = ds then none
  else some (ds \ toRemove, newpot.filter fun kv => kv.2 ≠ ∅)

/-- The `for i in range(len(word_list)-1)` loop: iterate `phraseStep`
over consecutive pairs `word_dicts[i], word_dicts[i+1]`. -/
def phraseLoop : ℕ → List Posting → Finset ℤ × List (ℤ × Finset ℤ) →
    Option (Finset ℤ × List (ℤ × Finset ℤ))
  | _, [], st => some st
  | _, [_], st => some st
  | i, P :: Q :: rest, st => (phraseStep i P Q st).bind (phraseLoop (i + 1) (Q :: rest))

/-- The result computation of `_phrase_search` (lines 701-743), after
the `_word_dict` lookups: takes the all-present boolean and the looked
up postings.  `none` models the uncaught `IndexError` of
`word_dicts[0]` on an empty word list; otherwise the
boolean/dictionary pair of the source, with the final dictionary
listed by ascending document id and each document's potential start
positions sorted ascending (lines 735-743). -/
def phrasePure (lk : Bool × List Posting) : Option (Bool × List (ℤ × List ℤ)) :=
  if lk.1 then
    match lk.2 with
    | [] => none
    | P0 :: rest =>
      let document_set := P0.document_set
      let potential := (finSortAsc document_set).map
        fun d => (d, dictGet P0.position_dict d)
      match phraseLoop 0 (P0 :: rest) (document_set, potential) with
      | none => some (false, [])
      | some (_, pot) =>
        if pot = [] then some (false, [])
        else
          some (true, (sortAsc (pot.map fun kv => kv.1)).map
            fun d => (d, finSortAsc (dictGet pot d)))
  else some (false, [])

/-- `_phrase_search` on the normalized word list: the `_word_dict`
lookups (which may insert default postings) followed by the pure
matching computation. -/
def phraseSearch (idx : InvIndex) (ws : List String) :
    Option (Bool × List (ℤ × List ℤ)) × InvIndex :=
  (phrasePure (lookupWords idx ws).1, (lookupWords idx ws).2)

/-- The result computation of `_documents_containing_phrase`
(lines 745-765): the key set of the phrase-search dictionary when the
phrase is present, else the empty set. -/
def dcpPure : Option (Bool × List (ℤ × List ℤ)) → Option (Finset ℤ)
  | none => none
  | some (found, dict) =>
    if found then some (dict.map fun kv => kv.1).toFinset else some ∅

/-- `_documents_containing_phrase`. -/
def documentsContainingPhrase (idx : InvIndex) (ws : List String) :
    Option (Finset ℤ) × InvIndex :=
  (dcpPure (phraseSearch idx ws).1, (phraseSearch idx ws).2)

/-- `_not_operator` (lines 767-770). -/
def notOperator (idx : InvIndex) (s : Finset ℤ) : Finset ℤ :=
  idx.total_document_set \ s

/-- `_and_operator` (lines 772-774): `set.intersection(*sets)` raises
`TypeError` on an empty argument list, modelled as `none`. -/
def andOperator : List (Finset ℤ) → Option (Finset ℤ)
  | [] => none
  | s :: t => some (t.foldl (· ∩ ·) s)

/-- `_or_operator` (lines 776-778). -/
def orOperator : List (Finset ℤ) → Option (Finset ℤ)
  | [] => none
  | s :: t => some (t.foldl (· ∪ ·) s)

/-! ## `_proximity_search` (source lines 780-830) -/

/-- The first loop of `_proximity_search` (lines 793-801): phrase
search for each of the two phrases, returning `[]` at the first absent
phrase (the second phrase is then not searched). -/
def proximityLookup (idx : InvIndex) (p1 p2 : List String) :
    Option (Option (List (ℤ × List ℤ) × List (ℤ × List ℤ))) × InvIndex :=
  match (phraseSearch idx p1).1 with
  | none => (none, (phraseSearch idx p1).2)
  | some (false, _) => (some none, (phraseSearch idx p1).2)
  | some (true, d1) =>
    match (phraseSearch (phraseSearch idx p1).2 p2).1 with
    | none => (none, (phraseSearch (phraseSearch idx p1).2 p2).2)
    | some (false, _) => (some none, (phraseSearch (phraseSearch idx p1).2 p2).2)
    | some (true, d2) =>
      (some (some (d1, d2)), (phraseSearch (phraseSearch idx p1).2 p2).2)

/-- `min_prox ≤ proximity_value` (line 824): comparison against the
`np.inf` sentinel is false. -/
def proxLe (m : Option ℕ) (k : ℕ) : Bool :=
  match m with
  | none => false
  | some v => v ≤ k

/-- Read a position list from a phrase-search dictionary. -/
def dictGetL (l : List (ℤ × List ℤ)) (d : ℤ) : List ℤ :=
  match l.find? fun kv => kv.1 = d with
  | some kv => kv.2
  | none => []

/-- `_proximity_search`: documents containing both phrases whose
minimum cross-phrase distance is at most `proximity_value`, sorted
ascending.  The outer `none` models an uncaught error inside
`proximity` (empty position list). -/
def proximitySearch (idx : InvIndex) (p1 p2 : List String) (k : ℕ) :
    Option (List ℤ) × InvIndex :=
  match (proximityLookup idx p1 p2).1 with
  | none => (none, (proximityLookup idx p1 p2).2)
  | some none => (some [], (proximityLookup idx p1 p2).2)
  | some (some (d1, d2)) =>
    let idx' := (proximityLookup idx p1 p2).2
    let common := ((d1.map fun kv => kv.1).toFinset ∩
      (d2.map fun kv => kv.1).toFinset)
    let results := (finSortAsc common).map
      fun d => (proximity (dictGetL d1 d) (dictGetL d2 d)).map fun r => (d, r.1)
    if results.all fun r => r.isSome then
      (some (((results.filterMap id).filter fun r => proxLe r.2 k).map
        fun r => r.1), idx')
    else (none, idx')

/-! ## The ranking engine (source lines 833-879) -/

/-- `_tfidf_term_weighting` (lines 833-857), with `np.log10` passed in
as the opaque collaborator `log10`.  A document not containing the
term scores `0`; otherwise
`(1 + log10(tf)) * log10(N / df)` over exact rationals. -/
def tfidfTermWeighting (log10 : ℚ → ℚ) (idx : InvIndex) (P : Posting)
    (d : ℤ) : ℚ :=
  if d ∉ P.document_set then 0
  else
    (1 + log10 ((dictGet P.position_dict d).card : ℚ)) *
      log10 ((idx.total_size : ℚ) / (P.document_set.card : ℚ))

/-- `wtd_score_dict[document] += w` on a `defaultdict(lambda: 0)`. -/
def scoreAdd : List (ℤ × ℚ) → ℤ → ℚ → List (ℤ × ℚ)
  | [], d, w => [(d, w)]
  | (k, v) :: t, d, w => if k = d then (k, v + w) :: t else (k, v) :: scoreAdd t d w

/-- The term loop of `ranked_ir_tfidf` (lines 871-876): for each query
term present in the collection, add its weight to the accumulated
score of every document of its document set (iterated in ascending
order; the python `set` iteration order is unobservable in the
score dictionary's values). -/
def rankedLoop (log10 : ℚ → ℚ) : InvIndex → List String → List (ℤ × ℚ) →
    List (ℤ × ℚ) × InvIndex
  | idx, [], acc => (acc, idx)
  | idx, t :: ts, acc =>
    let r := wordDict idx t
    if r.1.1 then
      let acc' := (finSortAsc r.1.2.document_set).foldl
        (fun a d => scoreAdd a d (tfidfTermWeighting log10 r.2 r.1.2 d)) acc
      rankedLoop log10 r.2 ts acc'
    else rankedLoop log10 r.2 ts acc

/-- Insert one entry after all existing entries of greater or equal
score (auxiliary of the stable descending sort). -/
def insertDesc (x : ℤ × ℚ) : List (ℤ × ℚ) → List (ℤ × ℚ)
  | [] => [x]
  | y :: t => if y.2 ≤ x.2 then x :: y :: t else y :: insertDesc x t

/-- `sorted(items, key=lambda x: x[1], reverse=True)`: a stable
descending sort on the score component. -/
def sortByScoreDesc (l : List (ℤ × ℚ)) : List (ℤ × ℚ) :=
  l.foldr insertDesc []

/-- `ranked_ir_tfidf` (lines 859-879) on the normalized query terms.
The final `remove_zero_sorted_wtd_score` dictionary comprehension of
the source (line 878) iterates all keys of the sorted dictionary with
no filtering condition, so it is an identity copy. -/
def rankedIrTfidf (log10 : ℚ → ℚ) (idx : InvIndex) (terms : List String) :
    List (ℤ × ℚ) × InvIndex :=
  let r := rankedLoop log10 idx terms []
  let sorted_wtd_score := sortByScoreDesc r.1
  let remove_zero_sorted_wtd_score := sorted_wtd_score.map fun kv => kv
  (remove_zero_sorted_wtd_score, r.2)

/-! ## `boolean_query_parser` (source lines 306-359) and
`boolean_query` (source lines 882-918)

The query text is modelled at token level: a word token, or one of the
literal connectors `AND` / `OR` recognised by the parsing regex (the
literal `NOT` is an ordinary word token, special-cased by the parser
only at the start of a segment).  `sys.exit(-1)` on a malformed query
is `Except.error ()`. -/

/-- A token of the boolean query text. -/
inductive Tok where
  | word (s : String)
  | AND
  | OR
deriving DecidableEq

/-- Word tokens (the characters the parsing regex allows inside the
`initial` group). -/
def Tok.isWord : Tok → Bool
  | .word _ => true
  | _ => false

/-- The word carried by a word token. -/
def Tok.getWord : Tok → String
  | .word s => s
  | .AND => "AND"
  | .OR => "OR"

/-- An element of the `document_AND_OR_list` built by the parser:
a document set, or a connector string. -/
inductive BItem where
  | docs (s : Finset ℤ)
  | AND
  | OR
deriving DecidableEq

/-- Process one `initial` group (source lines 330-343): an optional
leading literal `NOT` (with at least one following word, mirroring the
backtracking of `NOT_regex_pattern`: a lone `NOT` is the one-word
phrase `NOT`) followed by the phrase words.  Returns the document set
(complemented under `NOT`) and the index after the lookups; `none`
models an uncaught error inside the phrase search. -/
def parseSegment (idx : InvIndex) (ws : List String) :
    Option (Finset ℤ) × InvIndex :=
  if ws.head? = some "NOT" ∧ ws.tail ≠ [] then
    ((documentsContainingPhrase idx ws.tail).1.map fun s =>
      notOperator (documentsContainingPhrase idx ws.tail).2 s,
      (documentsContainingPhrase idx ws.tail).2)
  else documentsContainingPhrase idx ws

/-- The parsing loop of `boolean_query_parser` (source lines 322-359),
as a left-to-right scan.  Each regex iteration of the source splits off
the longest prefix of word tokens (the `initial` group, accumulated
here in `curSeg`; the regex fails and the program exits when it is
empty), an optional connector, and the remaining text.  The segment is
processed (index lookups included) before the malformed-query checks,
exactly as in the source; a connector with no remaining text, or a
connector/end with an empty `initial` group, prints the format message
and calls `sys.exit(-1)` (`Except.error ()`). -/
def booleanQueryParseGo : InvIndex → List Tok → List String → List BItem →
    Except Unit (List BItem) × InvIndex
  | idx, [], curSeg, acc =>
    if curSeg = [] then (.error (), idx)
    else
      match (parseSegment idx curSeg).1 with
      | none => (.error (), (parseSegment idx curSeg).2)
      | some s => (.ok (acc ++ [BItem.docs s]), (parseSegment idx curSeg).2)
  | idx, Tok.word w :: rest, curSeg, acc =>
    booleanQueryParseGo idx rest (curSeg ++ [w]) acc
  | idx, c :: rest, curSeg, acc =>
    if curSeg = [] then (.error (), idx)
    else
      match (parseSegment idx curSeg).1 with
      | none => (.error (), (parseSegment idx curSeg).2)
      | some s =>
        if rest = [] then (.error (), (parseSegment idx curSeg).2)
        else
          booleanQueryParseGo (parseSegment idx curSeg).2 rest []
            (acc ++ [BItem.docs s, if c = Tok.AND then BItem.AND else BItem.OR])

/-- `boolean_query_parser(documents_function, not_function, text)`. -/
def booleanQueryParse (idx : InvIndex) (text : List Tok) :
    Except Unit (List BItem) × InvIndex :=
  booleanQueryParseGo idx text [] []

/-- The OR-splitting of `boolean_query` (source lines 893-907): the
source records the positions of the `OR` items and slices the list
between consecutive occurrences, which is exactly splitting the list
on its `OR` elements (empty groups arise from leading, trailing or
adjacent `OR`s). -/
def splitOnOR : List BItem → List (List BItem)
  | [] => [[]]
  | BItem.OR :: t => [] :: splitOnOR t
  | x :: t =>
    match splitOnOR t with
    | [] => [[x]]
    | g :: gs => (x :: g) :: gs

/-- Drop the `AND` markers of a conjunction group, keeping its document
sets (source line 911; the groups contain no `OR` items). -/
def groupSets (g : List BItem) : List (Finset ℤ) :=
  g.filterMap fun
    | BItem.docs s => some s
    | _ => none

/-- `boolean_query` (source lines 882-918): parse, split on `OR`,
intersect inside each group, union the groups, and sort the final set
ascending.  `Except.error ()` covers the parser's `sys.exit` and the
`TypeError` of `set.intersection()` on an empty group. -/
def booleanQuery (idx : InvIndex) (text : List Tok) :
    Except Unit (List ℤ) × InvIndex :=
  match (booleanQueryParse idx text).1 with
  | .error e => (.error e, (booleanQueryParse idx text).2)
  | .ok items =>
    let orSets := (splitOnOR items).map fun g => andOperator (groupSets g)
    if orSets.all fun s => s.isSome then
      match orOperator (orSets.filterMap id) with
      | none => (.error (), (booleanQueryParse idx text).2)
      | some s => (.ok (finSortAsc s), (booleanQueryParse idx text).2)
    else (.error (), (booleanQueryParse idx text).2)

/-- The boolean batch loop of `main` (source lines 956-969): queries
are processed in order; `sys.exit` from a malformed query terminates
the whole process, so an error aborts the remaining queries. -/
def runBooleanBatch : InvIndex → List (List Tok) → Except Unit (List (List ℤ))
  | _, [] => .ok []
  | idx, q :: qs =>
    match booleanQuery idx q with
    | (.ok r, idx') =>
      match runBooleanBatch idx' qs with
      | .ok rs => .ok (r :: rs)
      | .error e => .error e
    | (.error e, _) => .error e

/-- A query operation against the index, for stating properties of
every reachable index state. -/
inductive QueryOp where
  | phrase (ws : List String)
  | boolean (text : List Tok)
  | ranked (log10 : ℚ → ℚ) (terms : List String)
  | prox (p1 p2 : List String) (k : ℕ)

/-- The index state after a query operation. -/
def applyOp (idx : InvIndex) : QueryOp → InvIndex
  | .phrase ws => (phraseSearch idx ws).2
  | .boolean text => (booleanQuery idx text).2
  | .ranked log10 terms => (rankedIrTfidf log10 idx terms).2
  | .prox p1 p2 k => (proximitySearch idx p1 p2 k).2

/-- The index state after a sequence of query operations. -/
def applyOps (idx : InvIndex) (ops : List QueryOp) : InvIndex :=
  ops.foldl applyOp idx

/-! ## Data-model predicates -/

/-- The postings invariant of the data model: the total frequency is
the sum of the per-document position-set sizes, a document belongs to
the document set exactly when its position set is non-empty, and the
per-document position table has no duplicate keys. -/
def PostingWF (P : Posting) : Prop :=
  P.frequency = sumCards P.position_dict ∧
  (∀ d : ℤ, d ∈ P.document_set ↔ dictGet P.position_dict d ≠ ∅) ∧
  (P.position_dict.map fun kv => kv.1).Nodup

/-- The index invariant: every term's posting (stored or default) is
well-formed and its document set is contained in the total document
set. -/
def WFIndex (idx : InvIndex) : Prop :=
  ∀ w : String, PostingWF (lookupPosting idx w) ∧
    (lookupPosting idx w).document_set ⊆ idx.total_document_set

/-- Observational equality of index states: every term lookup yields
the same posting and the total-document metadata agrees.  Query
operations only ever add default postings for missing terms, which
preserves this relation. -/
def ObsEq (idx idx' : InvIndex) : Prop :=
  (∀ v, lookupPosting idx' v = lookupPosting idx v) ∧
  idx'.total_document_set = idx.total_document_set ∧
  idx'.total_size = idx.total_size

/-! ## Specification-side view of the proximity scan

`proximity` is specified against the ascending merge of the two input
lists with each element tagged by its list of origin: the candidate
proximities are the absolute differences of adjacent merged elements
originating from different lists. -/

/-- Distance of an oriented cross-list pair. -/
def pairDist (pr : ℤ × ℤ) : ℕ :=
  (pr.1 - pr.2).natAbs

/-- Ascending merge with origin tags (`0` = first list, `1` = second
list; on equal values the first list's element comes first, as in the
source's `<=` comparison). -/
def mergeTagged : List ℤ → List ℤ → List (ℤ × ℕ)
  | [], l1 => l1.map fun y => (y, 1)
  | l0, [] => l0.map fun x => (x, 0)
  | x :: xs, y :: ys =>
    if x ≤ y then (x, 0) :: mergeTagged xs (y :: ys)
    else (y, 1) :: mergeTagged (x :: xs) ys
termination_by l0 l1 => l0.length + l1.length

/-- The adjacent pairs with distinct origin tags of a tagged sequence,
scanned from a given starting element, each oriented as
`(first-list element, second-list element)`. -/
def adjCross : ℤ × ℕ → List (ℤ × ℕ) → List (ℤ × ℤ)
  | _, [] => []
  | (p, pa), (c, ca) :: rest =>
    (if ca + pa = 1 then [if ca = 1 then (p, c) else (c, p)] else []) ++
      adjCross (c, ca) rest

/-- The adjacent cross-origin pairs of a whole tagged sequence. -/
def adjCrossFull : List (ℤ × ℕ) → List (ℤ × ℤ)
  | [] => []
  | h :: t => adjCross h t

/-- The update of the proximity state by one cross-origin pair: a
strictly smaller distance resets the minimum and the pair list, an
equal distance appends the pair, a larger distance is ignored. -/
def crossStep (s : ProxState) (pr : ℤ × ℤ) : ProxState :=
  match s.minProx with
  | none => ⟨some (pairDist pr), [pr]⟩
  | some m =>
    if pairDist pr < m then ⟨some (pairDist pr), [pr]⟩
    else if pairDist pr = m then ⟨some m, s.positions ++ [pr]⟩
    else s

/-! ## A small concrete corpus for counterexamples and witnesses -/

/-- Demonstration corpus: three documents. -/
def demoDocs : List Doc :=
  [⟨1, ["cat"], ["cat", "sat"]⟩, ⟨2, [], ["dog", "sat"]⟩, ⟨3, [], ["bird"]⟩]

/-- The index built from the demonstration corpus. -/
def demoIndex : InvIndex := buildIndex demoDocs

/-- A two-document corpus in which the term `a` occurs in every
document: its TF-IDF weight is `(1 + log10 1) * log10(2 / 2) = 0` in
both documents. -/
def ubiqDocs : List Doc :=
  [⟨10, [], ["a"]⟩, ⟨20, [], ["a"]⟩]

/-- The index built from the ubiquitous-term corpus. -/
def ubiqIndex : InvIndex := buildIndex ubiqDocs

/-- Equality of query results is decidable (`Except` has no derived
decidable equality). -/
def exceptDecEq {a : Type} [DecidableEq a] : DecidableEq (Except Unit a)
  | .ok x, .ok y =>
    match decEq x y with
    | isTrue h => isTrue (by rw [h])
    | isFalse h => isFalse (by intro hh; cases hh; exact h rfl)
  | .error _, .ok _ => isFalse (by intro hh; cases hh)
  | .ok _, .error _ => isFalse (by intro hh; cases hh)
  | .error x, .error y => isTrue (by cases x; cases y; rfl)

instance {a : Type} [DecidableEq a] : DecidableEq (Except Unit a) := exceptDecEq

example : storedTerms demoIndex = ["cat", "sat", "dog", "bird"] := by decide
example : (lookupPosting demoIndex "cat").frequency = 2 := by decide
example : (lookupPosting demoIndex "cat").document_set = {1} := by decide
example : dictGet (lookupPosting demoIndex "cat").position_dict 1 = {0, 1} := by decide
example : (phraseSearch demoIndex ["cat", "sat"]).1 = some (true, [(1, [1])]) := by decide
example : (booleanQuery demoIndex [.word "cat", .AND, .word "sat"]).1 = .ok [1] := by decide
example : (booleanQuery demoIndex [.word "cat", .OR, .word "dog"]).1 = .ok [1, 2] := by decide
example : (booleanQuery demoIndex [.word "NOT", .word "cat"]).1 = .ok [2, 3] := by decide
example : (proximitySearch demoIndex ["cat"] ["sat"] 1).1 = some [1] := by
  simp [proximitySearch, proximityLookup, phraseSearch, phrasePure, lookupWords, wordDict,
    lookupPosting, lookupEntries, storedTerms, defaultPosting, phraseLoop, phraseStep,
    removalSet,
    finSortAsc, insertAsc, dictGet, demoIndex, demoDocs, buildIndex, buildDoc,
    addTokens, addToken, updateEntry, addPos, dictSet, sortAsc, proximity, proxLoop,
    proxCheck, proxLe, dictGetL]

/-! # Theorems -/

/-! ## Lookup and state lemmas -/

theorem lookupEntries_append_default (l : List (String × Posting)) (w v : String) :
    lookupEntries (l ++ [(w, defaultPosting)]) v = lookupEntries l v := by
  induction l with
  | nil => simp only [List.nil_append, lookupEntries, ite_self]
  | cons kP t ih => rw [List.cons_append]; cases kP; simp only [lookupEntries, ih]

theorem notStored_lookupEntries {l : List (String × Posting)} {w : String}
    (h : w ∉ l.map fun e => e.1) : lookupEntries l w = defaultPosting := by
  induction l with
  | nil => rfl
  | cons kP t ih =>
    cases kP with
    | mk k P =>
      simp only [List.map_cons, List.mem_cons] at h
      push_neg at h
      simp only [lookupEntries, if_neg (Ne.symm h.1), ih h.2]

theorem notStored_lookup {idx : InvIndex} {w : String}
    (h : w ∉ storedTerms idx) : lookupPosting idx w = defaultPosting :=
  notStored_lookupEntries h

theorem wordDict_res (idx : InvIndex) (w : String) :
    (wordDict idx w).1 =
      (decide ((lookupPosting idx w).frequency ≠ 0), lookupPosting idx w) := rfl

theorem wordDict_snd_stored {idx : InvIndex} {w : String}
    (h : w ∈ storedTerms idx) : (wordDict idx w).2 = idx := by
  simp [wordDict, h]

theorem wordDict_snd_new {idx : InvIndex} {w : String}
    (h : w ∉ storedTerms idx) :
    (wordDict idx w).2 = { idx with entries := idx.entries ++ [(w, defaultPosting)] } := by
  simp [wordDict, h]

theorem obsEq_refl (idx : InvIndex) : ObsEq idx idx :=
  ⟨fun _ => rfl, rfl, rfl⟩

theorem obsEq_symm {a b : InvIndex} (h : ObsEq a b) : ObsEq b a :=
  ⟨fun v => (h.1 v).symm, h.2.1.symm, h.2.2.symm⟩

theorem obsEq_trans {a b c : InvIndex} (h1 : ObsEq a b) (h2 : ObsEq b c) :
    ObsEq a c :=
  ⟨fun v => (h2.1 v).trans (h1.1 v), h2.2.1.trans h1.2.1, h2.2.2.trans h1.2.2⟩

theorem wordDict_obsEq (idx : InvIndex) (w : String) :
    ObsEq idx (wordDict idx w).2 := by
  by_cases h : w ∈ storedTerms idx
  · rw [wordDict_snd_stored h]; exact obsEq_refl idx
  · rw [wordDict_snd_new h]
    exact ⟨fun v => lookupEntries_append_default idx.entries w v, rfl, rfl⟩

theorem wordDict_res_congr {idx idx₁ : InvIndex} (h : ObsEq idx idx₁)
    (w : String) : (wordDict idx₁ w).1 = (wordDict idx w).1 := by
  rw [wordDict_res, wordDict_res, h.1]

theorem lookupWords_cons (idx : InvIndex) (w : String) (t : List String) :
    lookupWords idx (w :: t) =
      if (wordDict idx w).1.1 then
        (((lookupWords (wordDict idx w).2 t).1.1,
          (wordDict idx w).1.2 :: (lookupWords (wordDict idx w).2 t).1.2),
          (lookupWords (wordDict idx w).2 t).2)
      else ((false, []), (wordDict idx w).2) := rfl

theorem lookupWords_obsEq (ws : List String) (idx : InvIndex) :
    ObsEq idx (lookupWords idx ws).2 := by
  induction ws generalizing idx with
  | nil => exact obsEq_refl idx
  | cons w t ih =>
    rw [lookupWords_cons]
    split
    · exact obsEq_trans (wordDict_obsEq idx w) (ih (wordDict idx w).2)
    · exact wordDict_obsEq idx w

theorem lookupWords_fst_congr {idx idx₁ : InvIndex} (h : ObsEq idx idx₁)
    (ws : List String) : (lookupWords idx₁ ws).1 = (lookupWords idx ws).1 := by
  induction ws generalizing idx idx₁ with
  | nil => rfl
  | cons w t ih =>
    have hw : (wordDict idx₁ w).1 = (wordDict idx w).1 := wordDict_res_congr h w
    have hnext : ObsEq (wordDict idx w).2 (wordDict idx₁ w).2 :=
      obsEq_trans (obsEq_symm (wordDict_obsEq idx w))
        (obsEq_trans h (wordDict_obsEq idx₁ w))
    rw [lookupWords_cons, lookupWords_cons, hw]
    split
    · rw [ih hnext]
    · rfl

theorem phraseSearch_snd (idx : InvIndex) (ws : List String) :
    (phraseSearch idx ws).2 = (lookupWords idx ws).2 := rfl

theorem phraseSearch_obsEq (idx : InvIndex) (ws : List String) :
    ObsEq idx (phraseSearch idx ws).2 :=
  lookupWords_obsEq ws idx

theorem phraseSearch_fst_congr {idx idx₁ : InvIndex} (h : ObsEq idx idx₁)
    (ws : List String) : (phraseSearch idx₁ ws).1 = (phraseSearch idx ws).1 := by
  show phrasePure _ = phrasePure _
  rw [lookupWords_fst_congr h ws]

theorem dcp_obsEq (idx : InvIndex) (ws : List String) :
    ObsEq idx (documentsContainingPhrase idx ws).2 :=
  phraseSearch_obsEq idx ws

theorem dcp_fst_congr {idx idx₁ : InvIndex} (h : ObsEq idx idx₁)
    (ws : List String) :
    (documentsContainingPhrase idx₁ ws).1 = (documentsContainingPhrase idx ws).1 := by
  show dcpPure _ = dcpPure _
  rw [phraseSearch_fst_congr h ws]

/-! ## C1: absent-term lookup and the term set of the index -/

/-- **C1, counterexample**: querying the absent term `zebra` does
create a persistent entry in the index: the set of stored terms is not
the same before and after the phrase query. -/
theorem query_lookup_creates_entry_cex :
    "zebra" ∉ storedTerms demoIndex ∧
    "zebra" ∈ storedTerms (phraseSearch demoIndex ["zebra"]).2 := by
  decide

/-- **C1 (amended)**: looking up a term absent from the index reports
absence as a distinct outcome (`(false, {})`), but — by `defaultdict`
semantics — inserts an empty posting for the term, so the stored key
set grows by exactly that term; every term lookup still observes the
same postings as before (the inserted entry equals the default). -/
theorem phrase_search_absent_term_effect (idx : InvIndex) (w : String)
    (h : w ∉ storedTerms idx) :
    (phraseSearch idx [w]).1 = some (false, []) ∧
    storedTerms (phraseSearch idx [w]).2 = storedTerms idx ++ [w] ∧
    ∀ v, lookupPosting (phraseSearch idx [w]).2 v = lookupPosting idx v := by
  have hlp : lookupPosting idx w = defaultPosting := notStored_lookup h
  have hb : (wordDict idx w).1.1 = false := by
    rw [wordDict_res, hlp]
    rfl
  have hlw : lookupWords idx [w] = ((false, []), (wordDict idx w).2) := by
    rw [lookupWords_cons, hb]
    rfl
  refine ⟨?_, ?_, ?_⟩
  · show phrasePure (lookupWords idx [w]).1 = some (false, [])
    rw [hlw]
    rfl
  · show storedTerms (lookupWords idx [w]).2 = _
    rw [hlw, wordDict_snd_new h]
    simp [storedTerms]
  · intro v
    show lookupPosting (lookupWords idx [w]).2 v = lookupPosting idx v
    rw [hlw, wordDict_snd_new h]
    exact lookupEntries_append_default idx.entries w v

/-- **C1 (amended), witness** at the demonstration index and the
absent term `zebra`. -/
theorem phrase_search_absent_term_effect_witness :
    "zebra" ∉ storedTerms demoIndex ∧
    ((phraseSearch demoIndex ["zebra"]).1 = some (false, []) ∧
     storedTerms (phraseSearch demoIndex ["zebra"]).2 =
       storedTerms demoIndex ++ ["zebra"] ∧
     ∀ v, lookupPosting (phraseSearch demoIndex ["zebra"]).2 v =
       lookupPosting demoIndex v) :=
  ⟨by decide, phrase_search_absent_term_effect demoIndex "zebra" (by decide)⟩

/-! ## C2: malformed queries and the batch -/

/-- **C2, counterexample**: a batch whose first boolean query is
malformed (trailing connector `zzz AND`) aborts as a whole — the
well-formed second query `cat`, which on its own succeeds with result
`[1]`, is never processed. -/
theorem malformed_query_aborts_batch_cex :
    runBooleanBatch demoIndex [[Tok.word "zzz", Tok.AND], [Tok.word "cat"]] =
      .error () ∧
    (booleanQuery demoIndex [Tok.word "cat"]).1 = .ok [1] := by
  decide

/-- **C2 (amended)**: a malformed query is not scoped to itself: the
parser calls `sys.exit(-1)`, so the whole batch run aborts and the
remaining queries are not processed. -/
theorem parse_error_aborts_batch (idx : InvIndex) (q : List Tok)
    (qs : List (List Tok)) (h : (booleanQuery idx q).1 = .error ()) :
    runBooleanBatch idx (q :: qs) = .error () := by
  have hq : booleanQuery idx q = (.error (), (booleanQuery idx q).2) := by
    rw [← h]
  rw [runBooleanBatch, hq]

/-- **C2 (amended), witness** at the demonstration index. -/
theorem parse_error_aborts_batch_witness :
    (booleanQuery demoIndex [Tok.word "zzz", Tok.AND]).1 = .error () ∧
    runBooleanBatch demoIndex [[Tok.word "zzz", Tok.AND], [Tok.word "cat"]] =
      .error () :=
  ⟨by decide, parse_error_aborts_batch demoIndex _ _ (by decide)⟩

/-! ## C3: zero scores in the TF-IDF ranking -/

/-- **C3**: the `remove_zero_sorted_wtd_score` step of
`ranked_ir_tfidf` does not remove anything, so a document whose score
is exactly `0` stays in the returned ranking.  In the two-document
corpus where the single query term occurs once in each document, both
documents score `(1 + log10 1) * log10(2/2) = 0` and both appear in
the output (the surrogate logarithm `fun q => q - 1` agrees with
`log10` on the only evaluation point `1`). -/
theorem ranked_tfidf_keeps_zero_scores :
    (rankedIrTfidf (fun q => q - 1) ubiqIndex ["a"]).1 = [(10, 0), (20, 0)] := by
  norm_num [rankedIrTfidf, rankedLoop, wordDict, lookupPosting, lookupEntries,
    storedTerms, defaultPosting, ubiqIndex, ubiqDocs, buildIndex, buildDoc,
    addTokens, addToken, updateEntry, addPos, dictSet, dictGet, finSortAsc,
    insertAsc, scoreAdd, tfidfTermWeighting, sortByScoreDesc, insertDesc, sumCards]

/-! ## Sorting lemmas -/

theorem mem_insertAsc {x a : ℤ} {l : List ℤ} :
    a ∈ insertAsc x l ↔ a = x ∨ a ∈ l := by
  induction l with
  | nil => simp [insertAsc]
  | cons y t ih =>
    simp only [insertAsc]
    split
    · simp
    · simp only [List.mem_cons, ih]
      tauto

theorem insertAsc_sorted {x : ℤ} {l : List ℤ} (h : l.Sorted (· ≤ ·)) :
    (insertAsc x l).Sorted (· ≤ ·) := by
  induction l with
  | nil => simp [insertAsc]
  | cons y t ih =>
    rw [List.sorted_cons] at h
    simp only [insertAsc]
    split
    · rw [List.sorted_cons]
      refine ⟨fun b hb => ?_, List.sorted_cons.mpr h⟩
      rcases List.mem_cons.mp hb with hb | hb
      · omega
      · have := h.1 b hb
        omega
    · rw [List.sorted_cons]
      refine ⟨fun b hb => ?_, ih h.2⟩
      rcases mem_insertAsc.mp hb with hb | hb
      · omega
      · exact h.1 b hb

theorem insertAsc_ne_nil (x : ℤ) (l : List ℤ) : insertAsc x l ≠ [] := by
  cases l with
  | nil => simp [insertAsc]
  | cons y t =>
    simp only [insertAsc]
    split <;> simp

theorem insertAsc_nodup {x : ℤ} {l : List ℤ} (hx : x ∉ l) (h : l.Nodup) :
    (insertAsc x l).Nodup := by
  induction l with
  | nil => simp [insertAsc]
  | cons y t ih =>
    simp only [List.mem_cons] at hx
    push_neg at hx
    rw [List.nodup_cons] at h
    simp only [insertAsc]
    split
    · refine List.nodup_cons.mpr ⟨?_, List.nodup_cons.mpr h⟩
      simp only [List.mem_cons]
      push_neg
      exact ⟨hx.1, hx.2⟩
    · refine List.nodup_cons.mpr ⟨?_, ih hx.2 h.2⟩
      rw [mem_insertAsc]
      push_neg
      exact ⟨Ne.symm hx.1, h.1⟩

theorem insertAsc_of_le {x : ℤ} {l : List ℤ} (h : ∀ b ∈ l, x ≤ b) :
    insertAsc x l = x :: l := by
  cases l with
  | nil => rfl
  | cons y t => simp only [insertAsc, if_pos (h y (by simp))]

theorem sortAsc_sorted (l : List ℤ) : (sortAsc l).Sorted (· ≤ ·) := by
  induction l with
  | nil => simp [sortAsc]
  | cons x t ih => exact insertAsc_sorted ih

theorem sortAsc_of_sorted {l : List ℤ} (h : l.Sorted (· ≤ ·)) :
    sortAsc l = l := by
  induction l with
  | nil => rfl
  | cons x t ih =>
    rw [List.sorted_cons] at h
    show insertAsc x (sortAsc t) = x :: t
    rw [ih h.2]
    exact insertAsc_of_le h.1

theorem finSortAsc_sorted (s : Finset ℤ) : (finSortAsc s).Sorted (· ≤ ·) := by
  show (Multiset.foldr insertAsc [] s.val).Sorted (· ≤ ·)
  induction s.val using Multiset.induction_on with
  | empty => simp
  | cons a m ih =>
    rw [Multiset.foldr_cons]
    exact insertAsc_sorted ih

theorem mem_foldr_insertAsc {m : Multiset ℤ} {a : ℤ} :
    a ∈ Multiset.foldr insertAsc [] m ↔ a ∈ m := by
  induction m using Multiset.induction_on with
  | empty => simp
  | cons b m ih =>
    rw [Multiset.foldr_cons, mem_insertAsc, Multiset.mem_cons, ih]

theorem mem_finSortAsc {s : Finset ℤ} {a : ℤ} : a ∈ finSortAsc s ↔ a ∈ s :=
  mem_foldr_insertAsc

theorem finSortAsc_eq_nil_iff {s : Finset ℤ} : finSortAsc s = [] ↔ s = ∅ := by
  constructor
  · intro h
    by_contra hne
    obtain ⟨a, ha⟩ := Finset.nonempty_iff_ne_empty.mpr hne
    have := mem_finSortAsc.mpr ha
    rw [h] at this
    exact absurd this (List.not_mem_nil a)
  · intro h
    subst h
    rfl

theorem foldr_insertAsc_nodup {m : Multiset ℤ} (h : m.Nodup) :
    (Multiset.foldr insertAsc [] m).Nodup := by
  induction m using Multiset.induction_on with
  | empty => simp
  | cons b m ih =>
    rw [Multiset.foldr_cons]
    rw [Multiset.nodup_cons] at h
    refine insertAsc_nodup ?_ (ih h.2)
    intro hc
    exact h.1 (mem_foldr_insertAsc.mp hc)

theorem finSortAsc_nodup (s : Finset ℤ) : (finSortAsc s).Nodup :=
  foldr_insertAsc_nodup s.nodup

/-! ## Dictionary lemmas -/

theorem dictGet_map_self (f : ℤ → Finset ℤ) {keys : List ℤ} {d : ℤ}
    (hd : d ∈ keys) : dictGet (keys.map fun k => (k, f k)) d = f d := by
  induction keys with
  | nil => cases hd
  | cons k t ih =>
    simp only [List.map_cons, dictGet]
    by_cases hk : k = d
    · rw [if_pos hk, hk]
    · rw [if_neg hk]
      exact ih (by rcases List.mem_cons.mp hd with h | h; exact absurd h.symm hk; exact h)

theorem dictGet_of_mem_nodup {l : List (ℤ × Finset ℤ)} {kv : ℤ × Finset ℤ}
    (hmem : kv ∈ l) (hnd : (l.map fun e => e.1).Nodup) :
    dictGet l kv.1 = kv.2 := by
  induction l with
  | nil => cases hmem
  | cons e t ih =>
    simp only [List.map_cons, List.nodup_cons] at hnd
    rcases List.mem_cons.mp hmem with h | h
    · subst h
      simp [dictGet]
    · have hne : e.1 ≠ kv.1 := by
        intro hc
        exact hnd.1 (hc ▸ List.mem_map.mpr ⟨kv, h, rfl⟩)
      simp only [dictGet, if_neg hne]
      exact ih h hnd.2

/-! ## C10: phrase search does not mutate stored postings -/

theorem freq_ne_zero_stored {idx : InvIndex} {w : String}
    (h : (lookupPosting idx w).frequency ≠ 0) : w ∈ storedTerms idx := by
  by_contra hc
  rw [notStored_lookup hc] at h
  exact h rfl

theorem lookupWords_snd_stored {ws : List String} {idx : InvIndex}
    (h : ∀ w ∈ ws, w ∈ storedTerms idx) : (lookupWords idx ws).2 = idx := by
  induction ws generalizing idx with
  | nil => rfl
  | cons w t ih =>
    have hw : (wordDict idx w).2 = idx := wordDict_snd_stored (h w (by simp))
    rw [lookupWords_cons]
    split <;> dsimp only <;> rw [hw]
    exact ih fun v hv => h v (List.mem_cons.mpr (Or.inr hv))

/-- **C10**: a phrase search whose terms are all present in the index
leaves the index unchanged: in particular every term's stored
frequency, document set and per-document position sets are equal
before and after the search (the matcher only mutates fresh copies of
the first term's position sets). -/
theorem phrase_search_preserves_postings (idx : InvIndex) (ws : List String)
    (h : ∀ w ∈ ws, (lookupPosting idx w).frequency ≠ 0) :
    (phraseSearch idx ws).2 = idx ∧
    ∀ w ∈ ws,
      (lookupPosting (phraseSearch idx ws).2 w).frequency =
        (lookupPosting idx w).frequency ∧
      (lookupPosting (phraseSearch idx ws).2 w).document_set =
        (lookupPosting idx w).document_set ∧
      ∀ d, dictGet (lookupPosting (phraseSearch idx ws).2 w).position_dict d =
        dictGet (lookupPosting idx w).position_dict d := by
  have h2 : (phraseSearch idx ws).2 = idx :=
    lookupWords_snd_stored fun w hw => freq_ne_zero_stored (h w hw)
  exact ⟨h2, fun w _ => by rw [h2]; exact ⟨rfl, rfl, fun d => rfl⟩⟩

/-- **C10, witness** at the demonstration index and the two-word
phrase `cat sat`. -/
theorem phrase_search_preserves_postings_witness :
    (∀ w ∈ ["cat", "sat"], (lookupPosting demoIndex w).frequency ≠ 0) ∧
    (phraseSearch demoIndex ["cat", "sat"]).2 = demoIndex :=
  ⟨by decide,
    (phrase_search_preserves_postings demoIndex ["cat", "sat"] (by decide)).1⟩

/-! ## C8: single-term phrase search -/

theorem posting_freq_docset {P : Posting} (hwf : PostingWF P)
    (h : P.frequency ≠ 0) : P.document_set ≠ ∅ := by
  obtain ⟨hfreq, hiff, hnd⟩ := hwf
  rw [hfreq] at h
  obtain ⟨kv, hkv, hc⟩ : ∃ kv ∈ P.position_dict, kv.2.card ≠ 0 := by
    by_contra hc
    push_neg at hc
    apply h
    apply List.sum_eq_zero
    intro x hx
    obtain ⟨kv, hkv, rfl⟩ := List.mem_map.mp hx
    exact hc kv hkv
  have hg : dictGet P.position_dict kv.1 = kv.2 := dictGet_of_mem_nodup hkv hnd
  have hk : kv.1 ∈ P.document_set := by
    refine (hiff kv.1).mpr ?_
    rw [hg]
    intro he
    rw [he] at hc
    simp at hc
  exact Finset.ne_empty_of_mem hk

/-- **C8**: a phrase consisting of the single term `T` degenerates to
`T`'s own posting.  If `T` is present (nonzero frequency), the search
returns `true` together with exactly `T`'s document set, each document
mapped to the ascending list of exactly `T`'s positions there; if `T`
is absent it returns `(false, {})`. -/
theorem phrase_search_single_term (idx : InvIndex) (T : String)
    (hwf : WFIndex idx) :
    ((lookupPosting idx T).frequency = 0 →
      (phraseSearch idx [T]).1 = some (false, [])) ∧
    ((lookupPosting idx T).frequency ≠ 0 →
      (phraseSearch idx [T]).1 = some (true,
        (finSortAsc (lookupPosting idx T).document_set).map
          fun d => (d, finSortAsc (dictGet (lookupPosting idx T).position_dict d)))) := by
  constructor
  · intro h0
    have hb : (wordDict idx T).1.1 = false := by
      rw [wordDict_res]
      simp [h0]
    show phrasePure (lookupWords idx [T]).1 = some (false, [])
    rw [lookupWords_cons, hb]
    rfl
  · intro hne
    have hb : (wordDict idx T).1.1 = true := by
      rw [wordDict_res]
      simp [hne]
    have hlw1 : (lookupWords idx [T]).1 = (true, [lookupPosting idx T]) := by
      rw [lookupWords_cons, hb]
      rfl
    show phrasePure (lookupWords idx [T]).1 = _
    rw [hlw1]
    set P := lookupPosting idx T with hP
    have hds : P.document_set ≠ ∅ := posting_freq_docset (hwf T).1 hne
    have hpotne : ((finSortAsc P.document_set).map
        fun d => (d, dictGet P.position_dict d)) ≠ [] := by
      intro hc
      rw [List.map_eq_nil_iff] at hc
      exact hds (finSortAsc_eq_nil_iff.mp hc)
    show (if ((finSortAsc P.document_set).map
        fun d => (d, dictGet P.position_dict d)) = [] then some (false, [])
      else some (true, (sortAsc (((finSortAsc P.document_set).map
          fun d => (d, dictGet P.position_dict d)).map fun kv => kv.1)).map
        fun d => (d, finSortAsc (dictGet ((finSortAsc P.document_set).map
          fun dd => (dd, dictGet P.position_dict dd)) d)))) = _
    rw [if_neg hpotne]
    have hkeys : (((finSortAsc P.document_set).map
        fun d => (d, dictGet P.position_dict d)).map fun kv => kv.1) =
        finSortAsc P.document_set := by
      rw [List.map_map]
      exact List.map_id' _ -- componentwise identity
    rw [hkeys, sortAsc_of_sorted (finSortAsc_sorted _)]
    refine congrArg _ (congrArg _ (List.map_congr_left fun d hd => ?_))
    rw [dictGet_map_self (fun k => dictGet P.position_dict k) hd]

/-! ## Build invariant: the index produced by `_build_index` is
well-formed -/

theorem lookupEntries_updateEntry_self (l : List (String × Posting))
    (w : String) (f : Posting → Posting) :
    lookupEntries (updateEntry l w f) w = f (lookupEntries l w) := by
  induction l with
  | nil => simp [updateEntry, lookupEntries]
  | cons kP t ih =>
    cases kP with
    | mk k P =>
      by_cases hk : k = w
      · subst hk
        simp [updateEntry, lookupEntries]
      · simp only [updateEntry, if_neg hk, lookupEntries, ih]

theorem lookupEntries_updateEntry_other (l : List (String × Posting))
    {w v : String} (f : Posting → Posting) (h : v ≠ w) :
    lookupEntries (updateEntry l w f) v = lookupEntries l v := by
  induction l with
  | nil => simp [updateEntry, lookupEntries, if_neg (Ne.symm h)]
  | cons kP t ih =>
    cases kP with
    | mk k P =>
      by_cases hk : k = w
      · subst hk
        simp [updateEntry, lookupEntries, if_neg (Ne.symm h)]
      · simp only [updateEntry, if_neg hk, lookupEntries, ih]

theorem dictGet_dictSet_self (l : List (ℤ × Finset ℤ)) (d : ℤ) (v : Finset ℤ) :
    dictGet (dictSet l d v) d = v := by
  induction l with
  | nil => simp [dictSet, dictGet]
  | cons kw t ih =>
    cases kw with
    | mk k w =>
      by_cases hk : k = d
      · subst hk
        simp [dictSet, dictGet]
      · simp only [dictSet, if_neg hk, dictGet, if_neg hk, ih]

theorem dictGet_dictSet_other (l : List (ℤ × Finset ℤ)) {d e : ℤ}
    (v : Finset ℤ) (h : e ≠ d) : dictGet (dictSet l d v) e = dictGet l e := by
  induction l with
  | nil => simp [dictSet, dictGet, if_neg (Ne.symm h)]
  | cons kw t ih =>
    cases kw with
    | mk k w =>
      by_cases hk : k = d
      · subst hk
        simp [dictSet, dictGet, if_neg (Ne.symm h)]
      · simp only [dictSet, if_neg hk, dictGet, ih]

theorem dictGet_addPos_self (l : List (ℤ × Finset ℤ)) (d p : ℤ) :
    dictGet (addPos l d p) d = insert p (dictGet l d) :=
  dictGet_dictSet_self l d _

theorem dictGet_addPos_other (l : List (ℤ × Finset ℤ)) {d e : ℤ} (p : ℤ)
    (h : e ≠ d) : dictGet (addPos l d p) e = dictGet l e :=
  dictGet_dictSet_other l _ h

theorem addPos_cons_self (k : ℤ) (w : Finset ℤ) (t : List (ℤ × Finset ℤ))
    (p : ℤ) : addPos ((k, w) :: t) k p = (k, insert p w) :: t := by
  simp [addPos, dictGet, dictSet]

theorem addPos_cons_other {k d : ℤ} (hk : k ≠ d) (w : Finset ℤ)
    (t : List (ℤ × Finset ℤ)) (p : ℤ) :
    addPos ((k, w) :: t) d p = (k, w) :: addPos t d p := by
  simp [addPos, dictGet, dictSet, hk]

theorem sumCards_addPos {l : List (ℤ × Finset ℤ)} {d p : ℤ}
    (hp : p ∉ dictGet l d) : sumCards (addPos l d p) = sumCards l + 1 := by
  induction l with
  | nil =>
    simp only [dictGet] at hp
    simp [addPos, dictSet, dictGet, sumCards, Finset.card_insert_of_not_mem hp]
  | cons kw t ih =>
    cases kw with
    | mk k w =>
      by_cases hk : k = d
      · subst hk
        have hp2 : p ∉ w := by simpa [dictGet] using hp
        rw [addPos_cons_self]
        simp only [sumCards, List.map_cons, List.sum_cons]
        rw [Finset.card_insert_of_not_mem hp2]
        omega
      · simp only [dictGet, if_neg hk] at hp
        rw [addPos_cons_other hk]
        simp only [sumCards, List.map_cons, List.sum_cons] at ih ⊢
        rw [ih hp]
        omega

theorem keys_addPos_subset {l : List (ℤ × Finset ℤ)} {d p : ℤ} :
    ∀ x ∈ (addPos l d p).map fun e => e.1, x ∈ l.map (fun e => e.1) ∨ x = d := by
  induction l with
  | nil => simp [addPos, dictSet]
  | cons kw t ih =>
    cases kw with
    | mk k w =>
      by_cases hk : k = d
      · subst hk
        rw [addPos_cons_self]
        intro x hx
        simp only [List.map_cons, List.mem_cons] at hx ⊢
        tauto
      · rw [addPos_cons_other hk]
        intro x hx
        simp only [List.map_cons, List.mem_cons] at hx ⊢
        rcases hx with h | h
        · exact Or.inl (Or.inl h)
        · rcases ih x h with h2 | h2
          · exact Or.inl (Or.inr h2)
          · exact Or.inr h2

theorem keys_addPos_nodup {l : List (ℤ × Finset ℤ)} {d p : ℤ}
    (h : (l.map fun e => e.1).Nodup) :
    ((addPos l d p).map fun e => e.1).Nodup := by
  induction l with
  | nil => simp [addPos, dictSet]
  | cons kw t ih =>
    cases kw with
    | mk k w =>
      simp only [List.map_cons, List.nodup_cons] at h
      by_cases hk : k = d
      · subst hk
        rw [addPos_cons_self]
        simp only [List.map_cons, List.nodup_cons]
        exact h
      · rw [addPos_cons_other hk]
        simp only [List.map_cons, List.nodup_cons]
        refine ⟨fun hc => ?_, ih h.2⟩
        rcases keys_addPos_subset k hc with h2 | h2
        · exact h.1 h2
        · exact hk h2

theorem dictGet_eq_empty_of_not_key {l : List (ℤ × Finset ℤ)} {d : ℤ}
    (h : d ∉ l.map fun e => e.1) : dictGet l d = ∅ := by
  induction l with
  | nil => rfl
  | cons kw t ih =>
    cases kw with
    | mk k w =>
      simp only [List.map_cons, List.mem_cons] at h
      push_neg at h
      simp only [dictGet, if_neg (Ne.symm h.1)]
      exact ih h.2

theorem postingWF_add {P : Posting} {d p : ℤ} (hwf : PostingWF P)
    (hp : p ∉ dictGet P.position_dict d) :
    PostingWF ⟨P.frequency + 1, insert d P.document_set,
      addPos P.position_dict d p⟩ := by
  obtain ⟨hfreq, hiff, hnd⟩ := hwf
  refine ⟨?_, ?_, keys_addPos_nodup hnd⟩
  · show P.frequency + 1 = sumCards (addPos P.position_dict d p)
    rw [sumCards_addPos hp, hfreq]
  · intro e
    by_cases he : e = d
    · subst he
      rw [dictGet_addPos_self]
      constructor
      · intro _
        exact Finset.ne_empty_of_mem (Finset.mem_insert_self p _)
      · intro _
        exact Finset.mem_insert_self _ _
    · simp only [Finset.mem_insert, dictGet_addPos_other _ _ he, he, false_or]
      exact hiff e

theorem mem_addPos {l : List (ℤ × Finset ℤ)} {d p : ℤ} {kv : ℤ × Finset ℤ}
    (h : kv ∈ addPos l d p) : kv.1 = d ∨ kv ∈ l := by
  induction l with
  | nil =>
    simp only [addPos, dictGet, dictSet, List.mem_singleton] at h
    subst h
    exact Or.inl rfl
  | cons kw t ih =>
    cases kw with
    | mk k w =>
      by_cases hk : k = d
      · subst hk
        rw [addPos_cons_self] at h
        rcases List.mem_cons.mp h with h | h
        · subst h
          exact Or.inl rfl
        · exact Or.inr (List.mem_cons.mpr (Or.inr h))
      · rw [addPos_cons_other hk] at h
        rcases List.mem_cons.mp h with h | h
        · exact Or.inr (List.mem_cons.mpr (Or.inl h))
        · rcases ih h with h2 | h2
          · exact Or.inl h2
          · exact Or.inr (List.mem_cons.mpr (Or.inr h2))

theorem lookup_addToken_self (idx : InvIndex) (d p : ℤ) (w : String) :
    lookupPosting (addToken idx d p w) w =
      ⟨(lookupPosting idx w).frequency + 1,
        insert d (lookupPosting idx w).document_set,
        addPos (lookupPosting idx w).position_dict d p⟩ :=
  lookupEntries_updateEntry_self idx.entries w _

theorem lookup_addToken_other (idx : InvIndex) {w v : String} (d p : ℤ)
    (h : v ≠ w) : lookupPosting (addToken idx d p w) v = lookupPosting idx v :=
  lookupEntries_updateEntry_other idx.entries _ h

theorem addToken_total (idx : InvIndex) (d p : ℤ) (w : String) :
    (addToken idx d p w).total_document_set = insert d idx.total_document_set := rfl

theorem wf_addToken {idx : InvIndex} {d p : ℤ} {w : String} (hwf : WFIndex idx)
    (hf : p ∉ dictGet (lookupPosting idx w).position_dict d) :
    WFIndex (addToken idx d p w) := by
  intro v
  by_cases hv : v = w
  · subst hv
    rw [lookup_addToken_self]
    refine ⟨postingWF_add (hwf v).1 hf, ?_⟩
    show insert d (lookupPosting idx v).document_set ⊆
      (addToken idx d p v).total_document_set
    rw [addToken_total]
    exact Finset.insert_subset_insert _ (hwf v).2
  · rw [lookup_addToken_other _ _ _ hv]
    refine ⟨(hwf v).1, ?_⟩
    show (lookupPosting idx v).document_set ⊆ (addToken idx d p w).total_document_set
    rw [addToken_total]
    exact (hwf v).2.trans (Finset.subset_insert _ _)

theorem addTokens_wf (d : ℤ) (ws : List String) :
    ∀ (idx : InvIndex) (offset : ℕ),
    WFIndex idx →
    (∀ w, ∀ q ∈ dictGet (lookupPosting idx w).position_dict d, q < (offset : ℤ)) →
    WFIndex (addTokens idx d offset ws) ∧
    (∀ w, ∀ q ∈ dictGet (lookupPosting (addTokens idx d offset ws) w).position_dict d,
      q < (offset : ℤ) + ws.length) ∧
    (∀ w d', d' ≠ d →
      dictGet (lookupPosting (addTokens idx d offset ws) w).position_dict d' =
      dictGet (lookupPosting idx w).position_dict d') ∧
    (∀ w kv, kv ∈ (lookupPosting (addTokens idx d offset ws) w).position_dict →
      kv.1 = d ∨ kv ∈ (lookupPosting idx w).position_dict) := by
  induction ws with
  | nil =>
    intro idx offset hwf hfr
    refine ⟨hwf, fun w q hq => ?_, fun w d' _ => rfl, fun w kv h => Or.inr h⟩
    have := hfr w q hq
    simp only [List.length_nil]
    omega
  | cons w t ih =>
    intro idx offset hwf hfr
    simp only [addTokens]
    have hf : (offset : ℤ) ∉ dictGet (lookupPosting idx w).position_dict d := by
      intro hc
      have := hfr w _ hc
      omega
    have hwf₁ : WFIndex (addToken idx d (offset : ℤ) w) := wf_addToken hwf hf
    have hfr₁ : ∀ v, ∀ q ∈ dictGet
        (lookupPosting (addToken idx d (offset : ℤ) w) v).position_dict d,
        q < ((offset + 1 : ℕ) : ℤ) := by
      intro v q hq
      by_cases hv : v = w
      · subst hv
        rw [lookup_addToken_self] at hq
        simp only [dictGet_addPos_self, Finset.mem_insert] at hq
        rcases hq with hq | hq
        · subst hq
          push_cast
          omega
        · have := hfr v q hq
          push_cast
          omega
      · rw [lookup_addToken_other _ _ _ hv] at hq
        have := hfr v q hq
        push_cast
        omega
    obtain ⟨W, B, C, D⟩ := ih (addToken idx d (offset : ℤ) w) (offset + 1) hwf₁ hfr₁
    refine ⟨W, ?_, ?_, ?_⟩
    · intro v q hq
      have := B v q hq
      simp only [List.length_cons] at this ⊢
      push_cast at this ⊢
      omega
    · intro v d' hd'
      rw [C v d' hd']
      by_cases hv : v = w
      · subst hv
        rw [lookup_addToken_self]
        exact dictGet_addPos_other _ _ hd'
      · rw [lookup_addToken_other _ _ _ hv]
    · intro v kv hkv
      rcases D v kv hkv with h | h
      · exact Or.inl h
      · by_cases hv : v = w
        · subst hv
          rw [lookup_addToken_self] at h
          exact mem_addPos h
        · rw [lookup_addToken_other _ _ _ hv] at h
          exact Or.inr h

theorem buildDoc_wf {idx : InvIndex} {doc : Doc} (hwf : WFIndex idx)
    (hu : ∀ w, dictGet (lookupPosting idx w).position_dict doc.doc_id = ∅) :
    WFIndex (buildDoc idx doc) ∧
    (∀ w d', d' ≠ doc.doc_id →
      dictGet (lookupPosting (buildDoc idx doc) w).position_dict d' =
      dictGet (lookupPosting idx w).position_dict d') := by
  have h0 : ∀ w, ∀ q ∈ dictGet (lookupPosting idx w).position_dict doc.doc_id,
      q < ((0 : ℕ) : ℤ) := by
    intro w q hq
    rw [hu w] at hq
    exact absurd hq (Finset.not_mem_empty q)
  obtain ⟨W1, B1, C1, _⟩ := addTokens_wf doc.doc_id doc.headline idx 0 hwf h0
  have h1 : ∀ w, ∀ q ∈ dictGet
      (lookupPosting (addTokens idx doc.doc_id 0 doc.headline) w).position_dict
      doc.doc_id, q < ((doc.headline.length : ℕ) : ℤ) := by
    intro w q hq
    have := B1 w q hq
    omega
  obtain ⟨W2, _, C2, _⟩ := addTokens_wf doc.doc_id doc.text
    (addTokens idx doc.doc_id 0 doc.headline) doc.headline.length W1 h1
  refine ⟨W2, ?_⟩
  intro w d' hd'
  show dictGet (lookupPosting (addTokens (addTokens idx doc.doc_id 0 doc.headline)
    doc.doc_id doc.headline.length doc.text) w).position_dict d' = _
  rw [C2 w d' hd', C1 w d' hd']

theorem buildFold_wf (docs : List Doc) :
    ∀ (idx : InvIndex),
    WFIndex idx →
    (∀ doc ∈ docs, ∀ w,
      dictGet (lookupPosting idx w).position_dict doc.doc_id = ∅) →
    ((docs.map fun doc => doc.doc_id).Nodup) →
    WFIndex (docs.foldl buildDoc idx) := by
  induction docs with
  | nil => intro idx hwf _ _; exact hwf
  | cons doc rest ih =>
    intro idx hwf hu hnd
    simp only [List.map_cons, List.nodup_cons] at hnd
    obtain ⟨W1, C1⟩ := buildDoc_wf hwf (hu doc (by simp))
    rw [List.foldl_cons]
    refine ih (buildDoc idx doc) W1 ?_ hnd.2
    intro doc' hdoc' w
    have hne : doc'.doc_id ≠ doc.doc_id := by
      intro hc
      exact hnd.1 (hc ▸ List.mem_map.mpr ⟨doc', hdoc', rfl⟩)
    rw [C1 w doc'.doc_id hne]
    exact hu doc' (List.mem_cons.mpr (Or.inr hdoc')) w

theorem wf_empty : WFIndex ⟨[], ∅, 0⟩ := by
  intro w
  refine ⟨⟨rfl, fun d => ?_, List.nodup_nil⟩, ?_⟩
  · show d ∈ (∅ : Finset ℤ) ↔ dictGet [] d ≠ ∅
    simp [dictGet]
  · show (∅ : Finset ℤ) ⊆ ∅
    exact Finset.Subset.refl _

/-- The index built by `_build_index` from documents with pairwise
distinct ids is well-formed. -/
theorem buildIndex_wf (docs : List Doc)
    (h : (docs.map fun doc => doc.doc_id).Nodup) : WFIndex (buildIndex docs) := by
  have hfold : WFIndex (docs.foldl buildDoc ⟨[], ∅, 0⟩) :=
    buildFold_wf docs ⟨[], ∅, 0⟩ wf_empty (fun _ _ _ => rfl) h
  intro w
  exact hfold w

/-! ## Query operations preserve the observable index -/

theorem wfIndex_obsEq {idx idx' : InvIndex} (h : ObsEq idx idx')
    (hwf : WFIndex idx) : WFIndex idx' := by
  intro w
  rw [h.1 w, h.2.1]
  exact hwf w

theorem parseSegment_obsEq (idx : InvIndex) (ws : List String) :
    ObsEq idx (parseSegment idx ws).2 := by
  unfold parseSegment
  split
  · exact dcp_obsEq _ _
  · exact dcp_obsEq _ _

theorem notOperator_congr {idx idx₁ : InvIndex} (h : ObsEq idx idx₁)
    (s : Finset ℤ) : notOperator idx₁ s = notOperator idx s := by
  unfold notOperator
  rw [h.2.1]

theorem parseSegment_fst_congr {idx idx₁ : InvIndex} (h : ObsEq idx idx₁)
    (ws : List String) : (parseSegment idx₁ ws).1 = (parseSegment idx ws).1 := by
  unfold parseSegment
  split
  · show ((documentsContainingPhrase idx₁ _).1.map _) = _
    rw [dcp_fst_congr h]
    refine congrArg (fun f => Option.map f _) (funext fun s => ?_)
    rw [notOperator_congr (obsEq_trans h (dcp_obsEq idx₁ _)) s,
      notOperator_congr (dcp_obsEq idx _) s]
  · exact dcp_fst_congr h _

theorem booleanQueryParseGo_obsEq (text : List Tok) :
    ∀ (idx : InvIndex) (curSeg : List String) (acc : List BItem),
    ObsEq idx (booleanQueryParseGo idx text curSeg acc).2 := by
  induction text with
  | nil =>
    intro idx curSeg acc
    simp only [booleanQueryParseGo]
    split
    · exact obsEq_refl idx
    · split
      · exact parseSegment_obsEq _ _
      · exact parseSegment_obsEq _ _
  | cons tok rest ih =>
    intro idx curSeg acc
    cases tok with
    | word w => exact ih idx (curSeg ++ [w]) acc
    | AND =>
      simp only [booleanQueryParseGo]
      split
      · exact obsEq_refl idx
      · split
        · exact parseSegment_obsEq _ _
        · split
          · exact parseSegment_obsEq _ _
          · exact obsEq_trans (parseSegment_obsEq _ _) (ih _ _ _)
    | OR =>
      simp only [booleanQueryParseGo]
      split
      · exact obsEq_refl idx
      · split
        · exact parseSegment_obsEq _ _
        · split
          · exact parseSegment_obsEq _ _
          · exact obsEq_trans (parseSegment_obsEq _ _) (ih _ _ _)

theorem booleanQueryParse_obsEq (idx : InvIndex) (text : List Tok) :
    ObsEq idx (booleanQueryParse idx text).2 :=
  booleanQueryParseGo_obsEq text idx [] []

theorem booleanQuery_obsEq (idx : InvIndex) (text : List Tok) :
    ObsEq idx (booleanQuery idx text).2 := by
  unfold booleanQuery
  split
  · exact booleanQueryParse_obsEq _ _
  · dsimp only
    split
    · split
      · exact booleanQueryParse_obsEq _ _
      · exact booleanQueryParse_obsEq _ _
    · exact booleanQueryParse_obsEq _ _

theorem rankedLoop_obsEq (log10 : ℚ → ℚ) (terms : List String) :
    ∀ (idx : InvIndex) (acc : List (ℤ × ℚ)),
    ObsEq idx (rankedLoop log10 idx terms acc).2 := by
  induction terms with
  | nil => intro idx acc; exact obsEq_refl idx
  | cons t ts ih =>
    intro idx acc
    simp only [rankedLoop]
    split
    · exact obsEq_trans (wordDict_obsEq idx t) (ih _ _)
    · exact obsEq_trans (wordDict_obsEq idx t) (ih _ _)

theorem rankedIrTfidf_obsEq (log10 : ℚ → ℚ) (idx : InvIndex)
    (terms : List String) : ObsEq idx (rankedIrTfidf log10 idx terms).2 :=
  rankedLoop_obsEq log10 terms idx []

theorem proximityLookup_obsEq (idx : InvIndex) (p1 p2 : List String) :
    ObsEq idx (proximityLookup idx p1 p2).2 := by
  unfold proximityLookup
  split
  · exact phraseSearch_obsEq _ _
  · exact phraseSearch_obsEq _ _
  · split
    · exact obsEq_trans (phraseSearch_obsEq _ _) (phraseSearch_obsEq _ _)
    · exact obsEq_trans (phraseSearch_obsEq _ _) (phraseSearch_obsEq _ _)
    · exact obsEq_trans (phraseSearch_obsEq _ _) (phraseSearch_obsEq _ _)

theorem proximitySearch_obsEq (idx : InvIndex) (p1 p2 : List String) (k : ℕ) :
    ObsEq idx (proximitySearch idx p1 p2 k).2 := by
  unfold proximitySearch
  split
  · exact proximityLookup_obsEq _ _ _
  · exact proximityLookup_obsEq _ _ _
  · dsimp only
    split
    · exact proximityLookup_obsEq _ _ _
    · exact proximityLookup_obsEq _ _ _

theorem applyOp_obsEq (idx : InvIndex) (op : QueryOp) :
    ObsEq idx (applyOp idx op) := by
  cases op with
  | phrase ws => exact phraseSearch_obsEq idx ws
  | boolean text => exact booleanQuery_obsEq idx text
  | ranked log10 terms => exact rankedIrTfidf_obsEq log10 idx terms
  | prox p1 p2 k => exact proximitySearch_obsEq idx p1 p2 k

theorem applyOps_obsEq (ops : List QueryOp) :
    ∀ idx : InvIndex, ObsEq idx (applyOps idx ops) := by
  induction ops with
  | nil => intro idx; exact obsEq_refl idx
  | cons op rest ih =>
    intro idx
    exact obsEq_trans (applyOp_obsEq idx op) (ih (applyOp idx op))

/-! ## C5: the index invariant in every reachable state -/

theorem postingWF_freq_sum {P : Posting} (hwf : PostingWF P) :
    P.frequency = ∑ d in P.document_set, (dictGet P.position_dict d).card := by
  obtain ⟨hfreq, hiff, hnd⟩ := hwf
  rw [hfreq]
  have h1 : sumCards P.position_dict =
      ((P.position_dict.map fun e => e.1).map
        fun k => (dictGet P.position_dict k).card).sum := by
    unfold sumCards
    rw [List.map_map]
    refine congrArg List.sum (List.map_congr_left fun kv hkv => ?_)
    show kv.2.card = (dictGet P.position_dict kv.1).card
    rw [dictGet_of_mem_nodup hkv hnd]
  have h2 : ((P.position_dict.map fun e => e.1).map
      fun k => (dictGet P.position_dict k).card).sum =
      ∑ k in (P.position_dict.map fun e => e.1).toFinset,
        (dictGet P.position_dict k).card :=
    (List.sum_toFinset _ hnd).symm
  have hsub : P.document_set ⊆ (P.position_dict.map fun e => e.1).toFinset := by
    intro d hd
    rw [List.mem_toFinset]
    by_contra hc
    exact (hiff d).mp hd (dictGet_eq_empty_of_not_key hc)
  rw [h1, h2]
  refine (Finset.sum_subset hsub fun x _ hx => ?_).symm
  rw [Finset.card_eq_zero]
  by_contra hc
  exact hx ((hiff x).mpr hc)

/-- **C5**: in every index state reachable by building from documents
with pairwise distinct ids and then running any sequence of query
operations, every term's stored frequency equals the sum over its
document set of the sizes of the per-document position sets, and a
document belongs to the term's document set exactly when its position
set for the term is non-empty. -/
theorem index_invariant_reachable (docs : List Doc) (ops : List QueryOp)
    (hnd : (docs.map fun doc => doc.doc_id).Nodup) (w : String) :
    (lookupPosting (applyOps (buildIndex docs) ops) w).frequency =
      ∑ d in (lookupPosting (applyOps (buildIndex docs) ops) w).document_set,
        (dictGet (lookupPosting (applyOps (buildIndex docs) ops) w).position_dict
          d).card ∧
    ∀ d : ℤ,
      d ∈ (lookupPosting (applyOps (buildIndex docs) ops) w).document_set ↔
      dictGet (lookupPosting (applyOps (buildIndex docs) ops) w).position_dict
        d ≠ ∅ := by
  have hwf : WFIndex (applyOps (buildIndex docs) ops) :=
    wfIndex_obsEq (applyOps_obsEq ops (buildIndex docs)) (buildIndex_wf docs hnd)
  exact ⟨postingWF_freq_sum (hwf w).1, (hwf w).1.2.1⟩

/-- **C5, witness**: the demonstration corpus followed by one query of
each kind, observed at the term `sat`. -/
theorem index_invariant_reachable_witness :
    ((demoDocs.map fun doc => doc.doc_id).Nodup) ∧
    ((lookupPosting (applyOps (buildIndex demoDocs)
        [QueryOp.phrase ["cat", "sat"],
         QueryOp.boolean [Tok.word "NOT", Tok.word "cat"],
         QueryOp.ranked (fun q => q - 1) ["sat"],
         QueryOp.prox ["cat"] ["sat"] 1]) "sat").frequency =
      ∑ d in (lookupPosting (applyOps (buildIndex demoDocs)
        [QueryOp.phrase ["cat", "sat"],
         QueryOp.boolean [Tok.word "NOT", Tok.word "cat"],
         QueryOp.ranked (fun q => q - 1) ["sat"],
         QueryOp.prox ["cat"] ["sat"] 1]) "sat").document_set,
        (dictGet (lookupPosting (applyOps (buildIndex demoDocs)
          [QueryOp.phrase ["cat", "sat"],
           QueryOp.boolean [Tok.word "NOT", Tok.word "cat"],
           QueryOp.ranked (fun q => q - 1) ["sat"],
           QueryOp.prox ["cat"] ["sat"] 1]) "sat").position_dict d).card) :=
  ⟨by decide,
    (index_invariant_reachable demoDocs
      [QueryOp.phrase ["cat", "sat"],
       QueryOp.boolean [Tok.word "NOT", Tok.word "cat"],
       QueryOp.ranked (fun q => q - 1) ["sat"],
       QueryOp.prox ["cat"] ["sat"] 1] (by decide) "sat").1⟩

/-- **C8, witness** at the demonstration index and the term `sat`. -/
theorem phrase_search_single_term_witness :
    (lookupPosting demoIndex "sat").frequency ≠ 0 ∧
    (phraseSearch demoIndex ["sat"]).1 = some (true,
      (finSortAsc (lookupPosting demoIndex "sat").document_set).map
        fun d => (d, finSortAsc
          (dictGet (lookupPosting demoIndex "sat").position_dict d))) :=
  ⟨by decide,
    (phrase_search_single_term demoIndex "sat"
      (buildIndex_wf demoDocs (by decide))).2 (by decide)⟩

/-! ## Parsing lemmas for C6 and C7 -/

theorem mem_sortAsc {l : List ℤ} {a : ℤ} : a ∈ sortAsc l ↔ a ∈ l := by
  induction l with
  | nil => simp [sortAsc]
  | cons x t ih =>
    show a ∈ insertAsc x (sortAsc t) ↔ _
    rw [mem_insertAsc, ih]
    simp

theorem lookupWords_true (ws : List String) :
    ∀ idx : InvIndex, (lookupWords idx ws).1.1 = true →
    (lookupWords idx ws).1.2 = ws.map (lookupPosting idx) := by
  induction ws with
  | nil => intro idx _; rfl
  | cons w t ih =>
    intro idx hb
    rw [lookupWords_cons] at hb ⊢
    by_cases hw : (wordDict idx w).1.1
    · rw [if_pos hw] at hb ⊢
      dsimp only at hb ⊢
      have ht : (lookupWords (wordDict idx w).2 t).1.1 = true := hb
      rw [ih (wordDict idx w).2 ht]
      show (wordDict idx w).1.2 :: _ = _
      rw [wordDict_res]
      dsimp only
      rw [List.map_cons]
      refine congrArg _ (List.map_congr_left fun v _ => ?_)
      exact (wordDict_obsEq idx w).1 v
    · rw [if_neg hw] at hb
      exact absurd hb (by simp)

theorem phraseStep_keys {i : ℕ} {P Q : Posting}
    {st out : Finset ℤ × List (ℤ × Finset ℤ)}
    (h : phraseStep i P Q st = some out) :
    ∀ k ∈ out.2.map fun kv => kv.1, k ∈ st.2.map fun kv => kv.1 := by
  unfold phraseStep at h
  dsimp only at h
  split at h
  · exact absurd h (by simp)
  · injection h with h
    subst h
    intro k hk
    dsimp only at hk
    obtain ⟨kv, hkv, rfl⟩ := List.mem_map.mp hk
    have hkv2 := List.mem_filter.mp hkv
    obtain ⟨kv0, hkv0, rfl⟩ := List.mem_map.mp hkv2.1
    have hkv3 := List.mem_filter.mp hkv0
    exact List.mem_map.mpr ⟨kv0, hkv3.1, rfl⟩

theorem phraseLoop_keys (Ps : List Posting) :
    ∀ (i : ℕ) (st out : Finset ℤ × List (ℤ × Finset ℤ)),
    phraseLoop i Ps st = some out →
    ∀ k ∈ out.2.map fun kv => kv.1, k ∈ st.2.map fun kv => kv.1 := by
  induction Ps with
  | nil =>
    intro i st out h k hk
    injection h with h
    subst h
    exact hk
  | cons P rest ih =>
    intro i st out h k hk
    cases rest with
    | nil =>
      injection h with h
      subst h
      exact hk
    | cons Q rest' =>
      simp only [phraseLoop, Option.bind_eq_some] at h
      obtain ⟨st₁, hstep, hloop⟩ := h
      exact phraseStep_keys hstep k (ih (i + 1) st₁ out hloop k hk)

theorem phrasePure_true_keys {lkb : Bool} {lkP : List Posting}
    {dict : List (ℤ × List ℤ)} (h : phrasePure (lkb, lkP) = some (true, dict)) :
    lkb = true ∧ ∃ P0 rest, lkP = P0 :: rest ∧
      ∀ kv ∈ dict, kv.1 ∈ P0.document_set := by
  cases lkb with
  | false => simp [phrasePure] at h
  | true =>
    refine ⟨rfl, ?_⟩
    cases lkP with
    | nil => simp [phrasePure] at h
    | cons P0 rest =>
      refine ⟨P0, rest, rfl, ?_⟩
      unfold phrasePure at h
      dsimp only at h
      rw [if_pos rfl] at h
      cases hloop : phraseLoop 0 (P0 :: rest) (P0.document_set,
          (finSortAsc P0.document_set).map
            fun d => (d, dictGet P0.position_dict d)) with
      | none =>
        rw [hloop] at h
        simp at h
      | some st =>
        rw [hloop] at h
        obtain ⟨ds1, pot⟩ := st
        dsimp only at h
        by_cases hpot : pot = []
        · subst hpot
          simp at h
        · rw [if_neg hpot] at h
          injection h with h
          injection h with h1 h2
          subst h2
          intro kv hkv
          obtain ⟨d, hd, rfl⟩ := List.mem_map.mp hkv
          have hd2 : d ∈ pot.map fun kv => kv.1 := mem_sortAsc.mp hd
          have hd3 := phraseLoop_keys (P0 :: rest) 0 _ _ hloop d hd2
          rw [List.map_map] at hd3
          obtain ⟨d', hd', he⟩ := List.mem_map.mp hd3
          have hde : d' = d := he
          subst hde
          exact mem_finSortAsc.mp hd'

theorem dcp_subset_total {idx : InvIndex} {ws : List String} {s : Finset ℤ}
    (hwf : WFIndex idx) (h : (documentsContainingPhrase idx ws).1 = some s) :
    s ⊆ idx.total_document_set := by
  have h' : dcpPure (phraseSearch idx ws).1 = some s := h
  cases hps : (phraseSearch idx ws).1 with
  | none =>
    rw [hps] at h'
    exact absurd h' (by simp [dcpPure])
  | some fd =>
    obtain ⟨found, dict⟩ := fd
    rw [hps] at h'
    cases found with
    | false =>
      simp only [dcpPure, if_neg (Bool.false_ne_true)] at h'
      injection h' with h'
      subst h'
      exact Finset.empty_subset _
    | true =>
      simp only [dcpPure, if_pos rfl] at h'
      injection h' with h'
      subst h'
      have hps' : phrasePure ((lookupWords idx ws).1.1, (lookupWords idx ws).1.2) =
          some (true, dict) := hps
      obtain ⟨hb, P0, rest, hP, hkeys⟩ := phrasePure_true_keys hps'
      cases ws with
      | nil =>
        rw [lookupWords_true [] idx hb] at hP
        exact absurd hP (by simp)
      | cons w t =>
        rw [lookupWords_true (w :: t) idx hb] at hP
        rw [List.map_cons] at hP
        injection hP with hP0 hPrest
        intro x hx
        rw [List.mem_toFinset] at hx
        obtain ⟨kv, hkv, rfl⟩ := List.mem_map.mp hx
        have := hkeys kv hkv
        rw [← hP0] at this
        exact (hwf w).2 this

theorem parseSegment_eq_dcp {idx : InvIndex} {ws : List String}
    (h : ws.head? ≠ some "NOT") :
    parseSegment idx ws = documentsContainingPhrase idx ws := by
  unfold parseSegment
  rw [if_neg]
  intro hc
  exact h hc.1

theorem phrasePure_false {lk : Bool × List Posting} (h : lk.1 = false) :
    phrasePure lk = some (false, []) := by
  unfold phrasePure
  rw [h]
  rfl

theorem phrasePure_cons_isSome (P0 : Posting) (rest : List Posting) :
    (phrasePure (true, P0 :: rest)).isSome := by
  unfold phrasePure
  dsimp only
  rw [if_pos rfl]
  cases hloop : phraseLoop 0 (P0 :: rest) (P0.document_set,
      (finSortAsc P0.document_set).map
        fun d => (d, dictGet P0.position_dict d)) with
  | none => rfl
  | some st =>
    obtain ⟨ds1, pot⟩ := st
    dsimp only
    split <;> rfl

theorem dcp_some (idx : InvIndex) {ws : List String} (h : ws ≠ []) :
    ∃ s, (documentsContainingPhrase idx ws).1 = some s := by
  have hs : ((phraseSearch idx ws).1).isSome := by
    show (phrasePure (lookupWords idx ws).1).isSome
    by_cases hb : (lookupWords idx ws).1.1
    · have h2 := lookupWords_true ws idx hb
      cases hws : ws with
      | nil => exact absurd hws h
      | cons w t =>
        subst hws
        rw [List.map_cons] at h2
        have : (lookupWords idx (w :: t)).1 =
            (true, lookupPosting idx w :: t.map (lookupPosting idx)) := by
          rw [Prod.ext_iff]
          exact ⟨hb, h2⟩
        rw [this]
        exact phrasePure_cons_isSome _ _
    · rw [phrasePure_false (Bool.not_eq_true _ ▸ Bool.eq_false_iff.mpr hb)]
      rfl
  obtain ⟨fd, hfd⟩ := Option.isSome_iff_exists.mp hs
  obtain ⟨found, dict⟩ := fd
  cases found with
  | false => exact ⟨∅, by show dcpPure _ = _; rw [hfd]; rfl⟩
  | true =>
    exact ⟨(dict.map fun kv => kv.1).toFinset, by show dcpPure _ = _; rw [hfd]; rfl⟩

theorem parseGo_append_words (A : List String) :
    ∀ (idx : InvIndex) (t : List Tok) (curSeg : List String) (acc : List BItem),
    booleanQueryParseGo idx (A.map Tok.word ++ t) curSeg acc =
    booleanQueryParseGo idx t (curSeg ++ A) acc := by
  induction A with
  | nil => intro idx t curSeg acc; simp
  | cons a A' ih =>
    intro idx t curSeg acc
    rw [List.map_cons, List.cons_append]
    show booleanQueryParseGo idx (A'.map Tok.word ++ t) (curSeg ++ [a]) acc = _
    rw [ih]
    simp

theorem parseGo_words_only (A : List String) (idx : InvIndex)
    (curSeg : List String) (acc : List BItem) :
    booleanQueryParseGo idx (A.map Tok.word) curSeg acc =
    booleanQueryParseGo idx [] (curSeg ++ A) acc := by
  rw [← List.append_nil (A.map Tok.word), parseGo_append_words]

theorem parseGo_final {idx : InvIndex} {seg : List String} (hseg : seg ≠ [])
    (hH : seg.head? ≠ some "NOT") {s : Finset ℤ}
    (hs : (documentsContainingPhrase idx seg).1 = some s) (acc : List BItem) :
    booleanQueryParseGo idx [] seg acc =
      (.ok (acc ++ [BItem.docs s]), (documentsContainingPhrase idx seg).2) := by
  simp only [booleanQueryParseGo]
  rw [if_neg hseg, parseSegment_eq_dcp hH, hs]

theorem parseGo_connector {idx : InvIndex} {seg : List String} (hseg : seg ≠ [])
    (hH : seg.head? ≠ some "NOT") {s : Finset ℤ}
    (hs : (documentsContainingPhrase idx seg).1 = some s)
    (c : Tok) (rest : List Tok) (hrest : rest ≠ []) (acc : List BItem)
    (hc : c = Tok.AND ∨ c = Tok.OR) :
    booleanQueryParseGo idx (c :: rest) seg acc =
      booleanQueryParseGo (documentsContainingPhrase idx seg).2 rest []
        (acc ++ [BItem.docs s, if c = Tok.AND then BItem.AND else BItem.OR]) := by
  rcases hc with rfl | rfl <;>
    · simp only [booleanQueryParseGo]
      rw [if_neg hseg, parseSegment_eq_dcp hH, hs]
      dsimp only
      rw [if_neg hrest]

/-! ## C6: AND binds tighter than OR -/

/-- **C6**: for phrases `A`, `B`, `C` (non-empty, not starting with the
`NOT` keyword), the boolean query `A AND B OR C` evaluates with `AND`
binding tighter than `OR`: the result is the ascending list of
`(docs(A) ∩ docs(B)) ∪ docs(C)`. -/
theorem boolean_and_or_precedence (idx : InvIndex) (A B C : List String)
    (hA : A ≠ []) (hB : B ≠ []) (hC : C ≠ [])
    (hHA : A.head? ≠ some "NOT") (hHB : B.head? ≠ some "NOT")
    (hHC : C.head? ≠ some "NOT") :
    ∃ sa sb sc,
      (documentsContainingPhrase idx A).1 = some sa ∧
      (documentsContainingPhrase idx B).1 = some sb ∧
      (documentsContainingPhrase idx C).1 = some sc ∧
      (booleanQuery idx (A.map Tok.word ++
        Tok.AND :: (B.map Tok.word ++ Tok.OR :: C.map Tok.word))).1 =
        .ok (finSortAsc ((sa ∩ sb) ∪ sc)) := by
  obtain ⟨sa, hsa⟩ := dcp_some idx hA
  obtain ⟨sb, hsb⟩ := dcp_some idx hB
  obtain ⟨sc, hsc⟩ := dcp_some idx hC
  refine ⟨sa, sb, sc, hsa, hsb, hsc, ?_⟩
  have hobs₁ : ObsEq idx (documentsContainingPhrase idx A).2 := dcp_obsEq idx A
  have hobs₂ : ObsEq idx
      (documentsContainingPhrase (documentsContainingPhrase idx A).2 B).2 :=
    obsEq_trans hobs₁ (dcp_obsEq _ B)
  have hsb₁ : (documentsContainingPhrase
      (documentsContainingPhrase idx A).2 B).1 = some sb := by
    rw [dcp_fst_congr hobs₁ B]
    exact hsb
  have hsc₂ : (documentsContainingPhrase (documentsContainingPhrase
      (documentsContainingPhrase idx A).2 B).2 C).1 = some sc := by
    rw [dcp_fst_congr hobs₂ C]
    exact hsc
  have hBne : B.map Tok.word ++ Tok.OR :: C.map Tok.word ≠ [] := by
    cases B with
    | nil => exact absurd rfl hB
    | cons b bs => simp
  have hparse : (booleanQueryParse idx (A.map Tok.word ++
      Tok.AND :: (B.map Tok.word ++ Tok.OR :: C.map Tok.word))).1 =
      .ok [BItem.docs sa, BItem.AND, BItem.docs sb, BItem.OR, BItem.docs sc] := by
    unfold booleanQueryParse
    rw [parseGo_append_words, List.nil_append,
      parseGo_connector hA hHA hsa _ _ hBne _ (Or.inl rfl),
      parseGo_append_words, List.nil_append,
      parseGo_connector hB hHB hsb₁ _ _ (by simpa using hC) _ (Or.inr rfl),
      parseGo_words_only, List.nil_append,
      parseGo_final hC hHC hsc₂]
    simp
  unfold booleanQuery
  rw [hparse]
  rfl

/-- **C6, witness**: `cat AND dog OR bird` on the demonstration index;
the result also differs from the other grouping
`docs(cat) ∩ (docs(dog) ∪ docs(bird))`. -/
theorem boolean_and_or_precedence_witness :
    ((["cat"] : List String) ≠ [] ∧ (["cat"] : List String).head? ≠ some "NOT" ∧
     (booleanQuery demoIndex (["cat"].map Tok.word ++ Tok.AND ::
       (["dog"].map Tok.word ++ Tok.OR :: ["bird"].map Tok.word))).1 ≠
       .ok (finSortAsc (({1} : Finset ℤ) ∩ ({2} ∪ {3})))) ∧
    ∃ sa sb sc,
      (documentsContainingPhrase demoIndex ["cat"]).1 = some sa ∧
      (documentsContainingPhrase demoIndex ["dog"]).1 = some sb ∧
      (documentsContainingPhrase demoIndex ["bird"]).1 = some sc ∧
      (booleanQuery demoIndex (["cat"].map Tok.word ++ Tok.AND ::
        (["dog"].map Tok.word ++ Tok.OR :: ["bird"].map Tok.word))).1 =
        .ok (finSortAsc ((sa ∩ sb) ∪ sc)) :=
  ⟨⟨by decide, by decide, by decide⟩,
    boolean_and_or_precedence demoIndex ["cat"] ["dog"] ["bird"]
      (by decide) (by decide) (by decide) (by decide) (by decide) (by decide)⟩

/-! ## C7: NOT partitions the total document set -/

theorem finSortAsc_toFinset (s : Finset ℤ) : (finSortAsc s).toFinset = s := by
  ext a
  rw [List.mem_toFinset, mem_finSortAsc]

theorem parseGo_final_NOT {idx : InvIndex} {Pws : List String} (hP : Pws ≠ [])
    {s : Finset ℤ} (hs : (documentsContainingPhrase idx Pws).1 = some s)
    (acc : List BItem) :
    booleanQueryParseGo idx [] ("NOT" :: Pws) acc =
      (.ok (acc ++ [BItem.docs (idx.total_document_set \ s)]),
        (documentsContainingPhrase idx Pws).2) := by
  simp only [booleanQueryParseGo]
  rw [if_neg (by simp : ¬ ("NOT" :: Pws : List String) = [])]
  have hseg : parseSegment idx ("NOT" :: Pws) =
      ((documentsContainingPhrase idx Pws).1.map fun t =>
        notOperator (documentsContainingPhrase idx Pws).2 t,
        (documentsContainingPhrase idx Pws).2) := by
    unfold parseSegment
    rw [if_pos ⟨rfl, hP⟩]
    rfl
  rw [hseg, hs]
  have hnot : notOperator (documentsContainingPhrase idx Pws).2 s =
      idx.total_document_set \ s := by
    unfold notOperator
    rw [(dcp_obsEq idx Pws).2.1]
  dsimp only [Option.map]
  rw [hnot]

/-- **C7**: for a phrase `P` (non-empty, not starting with the `NOT`
keyword) on a well-formed index, `boolean("P")` and
`boolean("NOT P")` both succeed, and their results are disjoint sets
whose union is the total document set. -/
theorem boolean_not_partition (idx : InvIndex) (P : List String)
    (hwf : WFIndex idx) (hP : P ≠ []) (hH : P.head? ≠ some "NOT") :
    ∃ s, (documentsContainingPhrase idx P).1 = some s ∧
      (booleanQuery idx (P.map Tok.word)).1 = .ok (finSortAsc s) ∧
      (booleanQuery idx (Tok.word "NOT" :: P.map Tok.word)).1 =
        .ok (finSortAsc (idx.total_document_set \ s)) ∧
      (finSortAsc s).toFinset ∩
        (finSortAsc (idx.total_document_set \ s)).toFinset = ∅ ∧
      (finSortAsc s).toFinset ∪
        (finSortAsc (idx.total_document_set \ s)).toFinset =
        idx.total_document_set := by
  obtain ⟨s, hs⟩ := dcp_some idx hP
  have hsub : s ⊆ idx.total_document_set := dcp_subset_total hwf hs
  refine ⟨s, hs, ?_, ?_, ?_, ?_⟩
  · have hparse : (booleanQueryParse idx (P.map Tok.word)).1 =
        .ok [BItem.docs s] := by
      unfold booleanQueryParse
      rw [parseGo_words_only, List.nil_append, parseGo_final hP hH hs]
      rfl
    unfold booleanQuery
    rw [hparse]
    rfl
  · have hparse : (booleanQueryParse idx (Tok.word "NOT" :: P.map Tok.word)).1 =
        .ok [BItem.docs (idx.total_document_set \ s)] := by
      unfold booleanQueryParse
      rw [show (Tok.word "NOT" :: P.map Tok.word) = ("NOT" :: P).map Tok.word
        from rfl, parseGo_words_only, List.nil_append, parseGo_final_NOT hP hs]
      rfl
    unfold booleanQuery
    rw [hparse]
    rfl
  · rw [finSortAsc_toFinset, finSortAsc_toFinset]
    exact Finset.inter_sdiff_self s idx.total_document_set
  · rw [finSortAsc_toFinset, finSortAsc_toFinset]
    exact Finset.union_sdiff_of_subset hsub

/-- **C7, witness**: the phrase `cat` on the demonstration index. -/
theorem boolean_not_partition_witness :
    ((["cat"] : List String) ≠ [] ∧
      (["cat"] : List String).head? ≠ some "NOT") ∧
    ∃ s, (documentsContainingPhrase demoIndex ["cat"]).1 = some s ∧
      (booleanQuery demoIndex (["cat"].map Tok.word)).1 = .ok (finSortAsc s) ∧
      (booleanQuery demoIndex (Tok.word "NOT" :: ["cat"].map Tok.word)).1 =
        .ok (finSortAsc (demoIndex.total_document_set \ s)) ∧
      (finSortAsc s).toFinset ∩
        (finSortAsc (demoIndex.total_document_set \ s)).toFinset = ∅ ∧
      (finSortAsc s).toFinset ∪
        (finSortAsc (demoIndex.total_document_set \ s)).toFinset =
        demoIndex.total_document_set :=
  ⟨⟨by decide, by decide⟩,
    boolean_not_partition demoIndex ["cat"]
      (buildIndex_wf demoDocs (by decide)) (by decide) (by decide)⟩

/-! ## C4 and C9: the proximity scanner

The scanner is related to the fold of `crossStep` over the adjacent
cross-origin pairs of the tagged merge, and that fold is characterised
as the minimum distance together with the sublist of pairs achieving
it. -/

theorem foldl_min_le_init (l : List ℕ) : ∀ a : ℕ, l.foldl min a ≤ a := by
  induction l with
  | nil => intro a; exact Nat.le_refl a
  | cons x t ih =>
    intro a
    rw [List.foldl_cons]
    exact (ih (min a x)).trans (Nat.min_le_left a x)

theorem foldl_min_le_mem (l : List ℕ) : ∀ (a : ℕ), ∀ x ∈ l, l.foldl min a ≤ x := by
  induction l with
  | nil => intro a x hx; cases hx
  | cons y t ih =>
    intro a x hx
    rw [List.foldl_cons]
    rcases List.mem_cons.mp hx with h | h
    · subst h
      exact (foldl_min_le_init t _).trans (Nat.min_le_right a x)
    · exact ih (min a y) x h

theorem foldl_min_eq_or_mem (l : List ℕ) : ∀ a : ℕ,
    l.foldl min a = a ∨ l.foldl min a ∈ l := by
  induction l with
  | nil => intro a; exact Or.inl rfl
  | cons x t ih =>
    intro a
    rw [List.foldl_cons]
    rcases ih (min a x) with h | h
    · rcases Nat.le_total a x with hax | hax
      · rw [h, Nat.min_eq_left hax]
        exact Or.inl rfl
      · rw [h, Nat.min_eq_right hax]
        exact Or.inr (List.mem_cons_self x t)
    · exact Or.inr (List.mem_cons.mpr (Or.inr h))

theorem pairDist_swap (u v : ℤ) : pairDist (u, v) = (v - u).natAbs := by
  unfold pairDist
  dsimp only
  omega

theorem proxCheck_eq (cur prev : ℤ) (ca pa : ℕ) (s : ProxState) :
    proxCheck cur prev ca pa s =
    List.foldl crossStep s
      (if ca + pa = 1 then [if ca = 1 then (prev, cur) else (cur, prev)] else []) := by
  by_cases h1 : ca + pa = 1
  · rw [if_pos h1]
    rw [List.foldl_cons, List.foldl_nil]
    have hd : pairDist (if ca = 1 then (prev, cur) else (cur, prev)) =
        (cur - prev).natAbs := by
      by_cases hc : ca = 1
      · rw [if_pos hc, pairDist_swap]
      · rw [if_neg hc]
        rfl
    unfold proxCheck crossStep
    rw [if_pos h1, hd]
  · rw [if_neg h1, List.foldl_nil]
    unfold proxCheck
    rw [if_neg h1]

theorem adjCross_tag1 (ys : List ℤ) : ∀ a : ℤ,
    adjCross (a, 1) (ys.map fun v => (v, 1)) = [] := by
  induction ys with
  | nil => intro a; rfl
  | cons y t ih =>
    intro a
    rw [List.map_cons]
    unfold adjCross
    rw [if_neg (by omega : ¬ (1 + 1 = 1))]
    rw [List.nil_append]
    exact ih y

theorem adjCross_tag0 (xs : List ℤ) : ∀ a : ℤ,
    adjCross (a, 0) (xs.map fun v => (v, 0)) = [] := by
  induction xs with
  | nil => intro a; rfl
  | cons x t ih =>
    intro a
    rw [List.map_cons]
    unfold adjCross
    rw [if_neg (by omega : ¬ (0 + 0 = 1))]
    rw [List.nil_append]
    exact ih x

theorem proxLoop_eq_foldl (l0 l1 : List ℤ) (prev : ℤ) (pa : ℕ) (s : ProxState) :
    proxLoop l0 l1 prev pa s =
    List.foldl crossStep s (adjCross (prev, pa) (mergeTagged l0 l1)) := by
  induction l0, l1 using mergeTagged.induct generalizing prev pa s with
  | case1 l1 =>
    cases l1 with
    | nil => simp only [proxLoop, mergeTagged, List.map_nil, adjCross, List.foldl_nil]
    | cons y ys =>
      simp only [proxLoop, mergeTagged, List.map_cons]
      try unfold adjCross
      try rw [adjCross_tag1, List.append_nil, proxCheck_eq]

  | case2 l0 h =>
    cases l0 with
    | nil => simp only [proxLoop, mergeTagged, List.map_nil, adjCross, List.foldl_nil]
    | cons x xs =>
      simp only [proxLoop]
      try rw [show mergeTagged (x :: xs) [] = (x :: xs).map (fun v => (v, 0)) from by
        simp only [mergeTagged]]
      try rw [List.map_cons]
      try unfold adjCross
      try rw [adjCross_tag0, List.append_nil, proxCheck_eq]

  | case3 x xs y ys hxy ih =>
    simp only [proxLoop]
    try rw [if_pos hxy]
    try rw [show mergeTagged (x :: xs) (y :: ys) = (x, 0) :: mergeTagged xs (y :: ys)
      from by simp only [mergeTagged]; try rw [if_pos hxy]]
    try unfold adjCross
    try rw [List.foldl_append, ih, proxCheck_eq]

  | case4 x xs y ys hxy ih =>
    simp only [proxLoop]
    try rw [if_neg hxy]
    try rw [show mergeTagged (x :: xs) (y :: ys) = (y, 1) :: mergeTagged (x :: xs) ys
      from by simp only [mergeTagged]; try rw [if_neg hxy]]
    try unfold adjCross
    try rw [List.foldl_append, ih, proxCheck_eq]


theorem crossStep_some (m₀ : ℕ) (q : List (ℤ × ℤ)) (pr : ℤ × ℤ) :
    crossStep ⟨some m₀, q⟩ pr =
      if pairDist pr < m₀ then ⟨some (pairDist pr), [pr]⟩
      else if pairDist pr = m₀ then ⟨some m₀, q ++ [pr]⟩
      else ⟨some m₀, q⟩ := rfl

theorem foldl_crossStep_some (ps : List (ℤ × ℤ)) :
    ∀ (m₀ : ℕ) (q : List (ℤ × ℤ)),
    List.foldl crossStep ⟨some m₀, q⟩ ps =
      ⟨some ((ps.map pairDist).foldl min m₀),
        (if (ps.map pairDist).foldl min m₀ = m₀ then q else []) ++
          ps.filter fun pr => pairDist pr = (ps.map pairDist).foldl min m₀⟩ := by
  induction ps with
  | nil =>
    intro m₀ q
    simp
  | cons pr rest ih =>
    intro m₀ q
    rw [List.foldl_cons, List.map_cons, List.foldl_cons, crossStep_some]
    by_cases h1 : pairDist pr < m₀
    · rw [if_pos h1]
      have hmin : min m₀ (pairDist pr) = pairDist pr := by omega
      rw [ih (pairDist pr) [pr], hmin]
      have hM : (rest.map pairDist).foldl min (pairDist pr) ≤ pairDist pr :=
        foldl_min_le_init _ _
      simp only [ProxState.mk.injEq, true_and]
      rw [if_neg (by omega : ¬ (rest.map pairDist).foldl min (pairDist pr) = m₀)]
      rw [List.filter_cons]
      by_cases h2 : pairDist pr = (rest.map pairDist).foldl min (pairDist pr)
      · rw [if_pos h2.symm, if_pos (by simpa using h2)]
        simp
      · rw [if_neg (fun hc => h2 hc.symm), if_neg (by simpa using h2)]
    · rw [if_neg h1]
      by_cases h2 : pairDist pr = m₀
      · rw [if_pos h2]
        have hmin : min m₀ (pairDist pr) = m₀ := by omega
        rw [ih m₀ (q ++ [pr]), hmin]
        simp only [ProxState.mk.injEq, true_and]
        rw [List.filter_cons]
        by_cases h3 : (rest.map pairDist).foldl min m₀ = m₀
        · rw [if_pos h3, if_pos h3]
          rw [if_pos (by simp [h2, h3])]
          simp
        · rw [if_neg h3, if_neg h3]
          rw [if_neg (by simp [h2]; exact fun hc => h3 hc.symm)]
      · rw [if_neg h2]
        have hmin : min m₀ (pairDist pr) = m₀ := by omega
        rw [ih m₀ q, hmin]
        simp only [ProxState.mk.injEq, true_and]
        rw [List.filter_cons]
        have hM : (rest.map pairDist).foldl min m₀ ≤ m₀ := foldl_min_le_init _ _
        rw [if_neg (show ¬ (decide
          (pairDist pr = (rest.map pairDist).foldl min m₀) = true) by simp; omega)]

theorem foldl_crossStep_none (q : List (ℤ × ℤ)) (pr : ℤ × ℤ) (ps : List (ℤ × ℤ)) :
    List.foldl crossStep ⟨none, q⟩ (pr :: ps) =
      ⟨some ((ps.map pairDist).foldl min (pairDist pr)),
        (pr :: ps).filter fun x =>
          pairDist x = (ps.map pairDist).foldl min (pairDist pr)⟩ := by
  rw [List.foldl_cons]
  have h1 : crossStep ⟨none, q⟩ pr = ⟨some (pairDist pr), [pr]⟩ := rfl
  rw [h1, foldl_crossStep_some]
  simp only [ProxState.mk.injEq, true_and]
  rw [List.filter_cons]
  by_cases h2 : (ps.map pairDist).foldl min (pairDist pr) = pairDist pr
  · rw [if_pos h2, if_pos (by simpa using h2.symm)]
    simp
  · rw [if_neg h2, if_neg (by simpa using fun hc => h2 hc.symm)]
    simp

theorem mem_mergeTagged : ∀ (l0 l1 : List ℤ) (p : ℤ × ℕ),
    p ∈ mergeTagged l0 l1 ↔ (p.2 = 0 ∧ p.1 ∈ l0) ∨ (p.2 = 1 ∧ p.1 ∈ l1) := by
  intro l0 l1
  induction l0, l1 using mergeTagged.induct with
  | case1 l1 =>
    intro p
    obtain ⟨a, t⟩ := p
    simp only [mergeTagged, List.mem_map, List.not_mem_nil, and_false, false_or,
      Prod.mk.injEq]
    constructor
    · rintro ⟨b, hb, rfl, rfl⟩
      exact ⟨rfl, hb⟩
    · rintro ⟨rfl, ha⟩
      exact ⟨a, ha, rfl, rfl⟩
  | case2 l0 h =>
    intro p
    obtain ⟨a, t⟩ := p
    rw [show mergeTagged l0 [] = l0.map fun x => (x, 0) by rw [mergeTagged]; exact h]
    simp only [List.mem_map, List.not_mem_nil, and_false, or_false, Prod.mk.injEq]
    constructor
    · rintro ⟨b, hb, rfl, rfl⟩
      exact ⟨rfl, hb⟩
    · rintro ⟨rfl, ha⟩
      exact ⟨a, ha, rfl, rfl⟩
  | case3 x xs y ys h ih =>
    intro p
    rw [mergeTagged, if_pos h]
    rw [List.mem_cons, ih p]
    obtain ⟨a, t⟩ := p
    simp only [Prod.mk.injEq, List.mem_cons]
    constructor
    · rintro (⟨rfl, rfl⟩ | ⟨ht, ha⟩ | ⟨ht, hb⟩)
      · exact Or.inl ⟨rfl, Or.inl rfl⟩
      · exact Or.inl ⟨ht, Or.inr ha⟩
      · exact Or.inr ⟨ht, hb⟩
    · rintro (⟨rfl, rfl | ha⟩ | ⟨rfl, hb⟩)
      · exact Or.inl ⟨rfl, rfl⟩
      · exact Or.inr (Or.inl ⟨rfl, ha⟩)
      · exact Or.inr (Or.inr ⟨rfl, hb⟩)
  | case4 x xs y ys h ih =>
    intro p
    rw [mergeTagged, if_neg h]
    rw [List.mem_cons, ih p]
    obtain ⟨a, t⟩ := p
    simp only [Prod.mk.injEq, List.mem_cons]
    constructor
    · rintro (⟨rfl, rfl⟩ | ⟨ht, ha⟩ | ⟨ht, hb⟩)
      · exact Or.inr ⟨rfl, Or.inl rfl⟩
      · exact Or.inl ⟨ht, ha⟩
      · exact Or.inr ⟨ht, Or.inr hb⟩
    · rintro (⟨rfl, ha⟩ | ⟨rfl, rfl | hb⟩)
      · exact Or.inr (Or.inl ⟨rfl, ha⟩)
      · exact Or.inl ⟨rfl, rfl⟩
      · exact Or.inr (Or.inr ⟨rfl, hb⟩)

theorem mergeTagged_nil_right (l0 : List ℤ) (h : l0 ≠ []) :
    mergeTagged l0 [] = l0.map fun x => (x, 0) := by
  rw [mergeTagged]
  exact h

theorem mergeTagged_sorted : ∀ l0 l1 : List ℤ, l0.Sorted (· ≤ ·) → l1.Sorted (· ≤ ·) →
    (mergeTagged l0 l1).Sorted (fun p q : ℤ × ℕ => p.1 ≤ q.1) := by
  intro l0 l1
  induction l0, l1 using mergeTagged.induct with
  | case1 l1 =>
    intro _ h1
    rw [mergeTagged]
    exact (List.pairwise_map).mpr h1
  | case2 l0 h =>
    intro h0 _
    rw [mergeTagged_nil_right l0 h]
    exact (List.pairwise_map).mpr h0
  | case3 x xs y ys h ih =>
    intro h0 h1
    rw [mergeTagged, if_pos h]
    rw [List.sorted_cons]
    refine ⟨?_, ih (List.sorted_cons.mp h0).2 h1⟩
    intro p hp
    rcases (mem_mergeTagged xs (y :: ys) p).mp hp with ⟨_, ha⟩ | ⟨_, hb⟩
    · exact (List.sorted_cons.mp h0).1 p.1 ha
    · rcases List.mem_cons.mp hb with hby | hbys
      · rw [hby]; exact h
      · exact h.trans ((List.sorted_cons.mp h1).1 p.1 hbys)
  | case4 x xs y ys h ih =>
    intro h0 h1
    have hyx : y ≤ x := le_of_not_le h
    rw [mergeTagged, if_neg h]
    rw [List.sorted_cons]
    refine ⟨?_, ih h0 (List.sorted_cons.mp h1).2⟩
    intro p hp
    rcases (mem_mergeTagged (x :: xs) ys p).mp hp with ⟨_, ha⟩ | ⟨_, hb⟩
    · rcases List.mem_cons.mp ha with hax | haxs
      · rw [hax]; exact hyx
      · exact hyx.trans ((List.sorted_cons.mp h0).1 p.1 haxs)
    · exact (List.sorted_cons.mp h1).1 p.1 hb

theorem adjCrossFull_subset : ∀ (t : List (ℤ × ℕ)) (hd : ℤ × ℕ),
    ∀ pr ∈ adjCrossFull t, pr ∈ adjCross hd t := by
  intro t hd pr hpr
  cases t with
  | nil => cases hpr
  | cons h' t' =>
    obtain ⟨p, pa⟩ := hd
    obtain ⟨c, ca⟩ := h'
    rw [adjCross]
    exact List.mem_append_right _ hpr

theorem adjCross_sound : ∀ (t : List (ℤ × ℕ)) (hd : ℤ × ℕ) (pr : ℤ × ℤ),
    pr ∈ adjCross hd t → (pr.1, 0) ∈ hd :: t ∧ (pr.2, 1) ∈ hd :: t := by
  intro t
  induction t with
  | nil =>
    intro hd pr hpr
    obtain ⟨p, pa⟩ := hd
    rw [adjCross] at hpr
    cases hpr
  | cons h' t' ih =>
    intro hd pr hpr
    obtain ⟨p, pa⟩ := hd
    obtain ⟨c, ca⟩ := h'
    rw [adjCross] at hpr
    rcases List.mem_append.mp hpr with hL | hR
    · by_cases hca : ca + pa = 1
      · rw [if_pos hca] at hL
        have hpr2 : pr = if ca = 1 then (p, c) else (c, p) := List.mem_singleton.mp hL
        by_cases hc1 : ca = 1
        · rw [if_pos hc1] at hpr2
          subst hpr2
          have hpa : pa = 0 := by omega
          subst hpa
          subst hc1
          exact ⟨List.mem_cons_self _ _,
            List.mem_cons_of_mem _ (List.mem_cons_self _ _)⟩
        · rw [if_neg hc1] at hpr2
          subst hpr2
          have hca0 : ca = 0 := by omega
          have hpa1 : pa = 1 := by omega
          subst hca0
          subst hpa1
          exact ⟨List.mem_cons_of_mem _ (List.mem_cons_self _ _),
            List.mem_cons_self _ _⟩
      · rw [if_neg hca] at hL
        cases hL
    · have hs := ih (c, ca) pr hR
      exact ⟨List.mem_cons_of_mem _ hs.1, List.mem_cons_of_mem _ hs.2⟩

theorem adjCross_reach : ∀ (M : List (ℤ × ℕ)),
    M.Pairwise (fun p q => p.1 ≤ q.1) →
    (∀ p ∈ M, p.2 = 0 ∨ p.2 = 1) →
    ∀ x y : ℤ, (x, 0) ∈ M → (y, 1) ∈ M →
    ∃ pr ∈ adjCrossFull M, pairDist pr ≤ (x - y).natAbs := by
  intro M
  induction M with
  | nil =>
    intro _ _ x y hx _
    cases hx
  | cons hd t ih =>
    intro hs htags x y hx hy
    obtain ⟨hhd, hst⟩ := List.pairwise_cons.mp hs
    have htt : ∀ p ∈ t, p.2 = 0 ∨ p.2 = 1 :=
      fun p hp => htags p (List.mem_cons_of_mem _ hp)
    by_cases hxt : (x, 0) ∈ t
    · by_cases hyt : (y, 1) ∈ t
      · obtain ⟨pr, hpr, hle⟩ := ih hst htt x y hxt hyt
        exact ⟨pr, adjCrossFull_subset t hd pr hpr, hle⟩
      · have hhdy : hd = (y, 1) := by
          rcases List.mem_cons.mp hy with h | h
          · exact h.symm
          · exact absurd h hyt
        subst hhdy
        cases t with
        | nil => cases hxt
        | cons h' t' =>
          obtain ⟨c, ca⟩ := h'
          have hyc : y ≤ c := hhd (c, ca) (List.mem_cons_self _ _)
          have hcx : c ≤ x := by
            rcases List.mem_cons.mp hxt with h | h
            · injection h with h1 h2
              omega
            · exact (List.pairwise_cons.mp hst).1 (x, 0) h
          rcases htags (c, ca)
              (List.mem_cons_of_mem _ (List.mem_cons_self _ _)) with hca | hca
          · subst hca
            refine ⟨(c, y), ?_, ?_⟩
            · rw [show adjCrossFull ((y, 1) :: (c, 0) :: t') =
                  adjCross (y, 1) ((c, 0) :: t') from rfl]
              rw [adjCross, if_pos (by norm_num), if_neg (by norm_num)]
              exact List.mem_append_left _ (List.mem_singleton_self _)
            · unfold pairDist
              dsimp only
              omega
          · subst hca
            obtain ⟨pr, hpr, hle⟩ := ih hst htt x c hxt (List.mem_cons_self _ _)
            refine ⟨pr, adjCrossFull_subset _ _ pr hpr, ?_⟩
            omega
    · have hhdx : hd = (x, 0) := by
        rcases List.mem_cons.mp hx with h | h
        · exact h.symm
        · exact absurd h hxt
      subst hhdx
      have hyt : (y, 1) ∈ t := by
        rcases List.mem_cons.mp hy with h | h
        · exact absurd h (by simp)
        · exact h
      cases t with
      | nil => cases hyt
      | cons h' t' =>
        obtain ⟨c, ca⟩ := h'
        have hxc : x ≤ c := hhd (c, ca) (List.mem_cons_self _ _)
        have hcy : c ≤ y := by
          rcases List.mem_cons.mp hyt with h | h
          · injection h with h1 h2
            omega
          · exact (List.pairwise_cons.mp hst).1 (y, 1) h
        rcases htags (c, ca)
            (List.mem_cons_of_mem _ (List.mem_cons_self _ _)) with hca | hca
        · subst hca
          obtain ⟨pr, hpr, hle⟩ := ih hst htt c y (List.mem_cons_self _ _) hyt
          refine ⟨pr, adjCrossFull_subset _ _ pr hpr, ?_⟩
          omega
        · subst hca
          refine ⟨(x, c), ?_, ?_⟩
          · rw [show adjCrossFull ((x, 0) :: (c, 1) :: t') =
                adjCross (x, 0) ((c, 1) :: t') from rfl]
            rw [adjCross, if_pos (by norm_num), if_pos rfl]
            exact List.mem_append_left _ (List.mem_singleton_self _)
          · unfold pairDist
            dsimp only
            omega

theorem adjCross_complete : ∀ (M : List (ℤ × ℕ)),
    M.Pairwise (fun p q => p.1 ≤ q.1) →
    (∀ p ∈ M, p.2 = 0 ∨ p.2 = 1) →
    ∀ a b : ℤ, (a, 0) ∈ M → (b, 1) ∈ M →
    (∀ x y : ℤ, (x, 0) ∈ M → (y, 1) ∈ M → (a - b).natAbs ≤ (x - y).natAbs) →
    (a, b) ∈ adjCrossFull M := by
  intro M
  induction M with
  | nil =>
    intro _ _ a b ha _ _
    cases ha
  | cons hd t ih =>
    intro hs htags a b ha hb hmin
    obtain ⟨hhd, hst⟩ := List.pairwise_cons.mp hs
    have htt : ∀ p ∈ t, p.2 = 0 ∨ p.2 = 1 :=
      fun p hp => htags p (List.mem_cons_of_mem _ hp)
    have hmint : ∀ x y : ℤ, (x, 0) ∈ t → (y, 1) ∈ t →
        (a - b).natAbs ≤ (x - y).natAbs :=
      fun x y hx hy =>
        hmin x y (List.mem_cons_of_mem _ hx) (List.mem_cons_of_mem _ hy)
    by_cases hat : (a, 0) ∈ t
    · by_cases hbt : (b, 1) ∈ t
      · exact adjCrossFull_subset t hd _ (ih hst htt a b hat hbt hmint)
      · have hhdb : hd = (b, 1) := by
          rcases List.mem_cons.mp hb with h | h
          · exact h.symm
          · exact absurd h hbt
        subst hhdb
        cases t with
        | nil => cases hat
        | cons h' t' =>
          obtain ⟨c, ca⟩ := h'
          have hbc : b ≤ c := hhd (c, ca) (List.mem_cons_self _ _)
          have hca_le_a : c ≤ a := by
            rcases List.mem_cons.mp hat with h | h
            · injection h with h1 h2
              omega
            · exact (List.pairwise_cons.mp hst).1 (a, 0) h
          rcases htags (c, ca)
              (List.mem_cons_of_mem _ (List.mem_cons_self _ _)) with hca | hca
          · subst hca
            have hminc := hmin c b
              (List.mem_cons_of_mem _ (List.mem_cons_self _ _)) hb
            have hce : c = a := by omega
            rw [show adjCrossFull ((b, 1) :: (c, 0) :: t') =
                adjCross (b, 1) ((c, 0) :: t') from rfl]
            rw [adjCross, if_pos (by norm_num), if_neg (by norm_num)]
            rw [hce]
            exact List.mem_append_left _ (List.mem_singleton_self _)
          · subst hca
            have hat' : (a, 0) ∈ t' := by
              rcases List.mem_cons.mp hat with h | h
              · injection h with h1 h2
                exact absurd h2 (by decide)
              · exact h
            have hca2 : c ≤ a := (List.pairwise_cons.mp hst).1 (a, 0) hat'
            have hminc := hmin a c (List.mem_cons_of_mem _ hat)
              (List.mem_cons_of_mem _ (List.mem_cons_self _ _))
            have hce : c = b := by omega
            have hbt2 : (b, 1) ∈ (c, 1) :: t' := by
              rw [hce]
              exact List.mem_cons_self _ _
            exact adjCrossFull_subset _ _ _ (ih hst htt a b hat hbt2 hmint)
    · have hhda : hd = (a, 0) := by
        rcases List.mem_cons.mp ha with h | h
        · exact h.symm
        · exact absurd h hat
      subst hhda
      have hbt : (b, 1) ∈ t := by
        rcases List.mem_cons.mp hb with h | h
        · exact absurd h (by simp)
        · exact h
      cases t with
      | nil => cases hbt
      | cons h' t' =>
        obtain ⟨c, ca⟩ := h'
        have hac : a ≤ c := hhd (c, ca) (List.mem_cons_self _ _)
        rcases htags (c, ca)
            (List.mem_cons_of_mem _ (List.mem_cons_self _ _)) with hca | hca
        · subst hca
          have hbt' : (b, 1) ∈ t' := by
            rcases List.mem_cons.mp hbt with h | h
            · injection h with h1 h2
              exact absurd h2 (by decide)
            · exact h
          have hcb : c ≤ b := (List.pairwise_cons.mp hst).1 (b, 1) hbt'
          have hminc := hmin c b
            (List.mem_cons_of_mem _ (List.mem_cons_self _ _)) hb
          have hce : c = a := by omega
          have hat2 : (a, 0) ∈ (c, 0) :: t' := by
            rw [hce]
            exact List.mem_cons_self _ _
          exact adjCrossFull_subset _ _ _ (ih hst htt a b hat2 hbt hmint)
        · subst hca
          have hcb : c ≤ b := by
            rcases List.mem_cons.mp hbt with h | h
            · injection h with h1 h2
              omega
            · exact (List.pairwise_cons.mp hst).1 (b, 1) h
          have hminc := hmin a c ha
            (List.mem_cons_of_mem _ (List.mem_cons_self _ _))
          have hce : c = b := by omega
          rw [show adjCrossFull ((a, 0) :: (c, 1) :: t') =
              adjCross (a, 0) ((c, 1) :: t') from rfl]
          rw [adjCross, if_pos (by norm_num), if_pos rfl]
          rw [hce]
          exact List.mem_append_left _ (List.mem_singleton_self _)

theorem adjCrossFull_sound (M : List (ℤ × ℕ)) (pr : ℤ × ℤ)
    (hpr : pr ∈ adjCrossFull M) : (pr.1, 0) ∈ M ∧ (pr.2, 1) ∈ M := by
  cases M with
  | nil => cases hpr
  | cons mh mt => exact adjCross_sound mt mh pr hpr

theorem proximity_spec : ∀ (l0 l1 : List ℤ), l0 ≠ [] → l1 ≠ [] →
    l0.Sorted (· ≤ ·) → l1.Sorted (· ≤ ·) →
    ∃ (m : ℕ) (ps : List (ℤ × ℤ)),
      proximity l0 l1 = some (some m, ps) ∧ ps ≠ [] ∧
      (∀ pr ∈ adjCrossFull (mergeTagged l0 l1), m ≤ pairDist pr) ∧
      (∃ pr ∈ adjCrossFull (mergeTagged l0 l1), pairDist pr = m) ∧
      (∀ a ∈ l0, ∀ b ∈ l1, m ≤ (a - b).natAbs) ∧
      (∃ a ∈ l0, ∃ b ∈ l1, (a - b).natAbs = m) ∧
      (∀ a b : ℤ, (a, b) ∈ ps ↔ a ∈ l0 ∧ b ∈ l1 ∧ (a - b).natAbs = m) := by
  intro l0 l1 h0 h1 s0 s1
  cases l0 with
  | nil => exact absurd rfl h0
  | cons x xs =>
  cases l1 with
  | nil => exact absurd rfl h1
  | cons y ys =>
  have hsM : (mergeTagged (x :: xs) (y :: ys)).Pairwise
      (fun p q : ℤ × ℕ => p.1 ≤ q.1) := mergeTagged_sorted _ _ s0 s1
  have htagsM : ∀ p ∈ mergeTagged (x :: xs) (y :: ys), p.2 = 0 ∨ p.2 = 1 := by
    intro p hp
    rcases (mem_mergeTagged _ _ p).mp hp with ⟨h, _⟩ | ⟨h, _⟩
    · exact Or.inl h
    · exact Or.inr h
  have hmem0 : ∀ a : ℤ, (a, 0) ∈ mergeTagged (x :: xs) (y :: ys) ↔ a ∈ x :: xs := by
    intro a
    rw [mem_mergeTagged]
    simp
  have hmem1 : ∀ b : ℤ, (b, 1) ∈ mergeTagged (x :: xs) (y :: ys) ↔ b ∈ y :: ys := by
    intro b
    rw [mem_mergeTagged]
    simp
  have hprox : proximity (x :: xs) (y :: ys) =
      some ((List.foldl crossStep ⟨none, []⟩
          (adjCrossFull (mergeTagged (x :: xs) (y :: ys)))).minProx,
        (List.foldl crossStep ⟨none, []⟩
          (adjCrossFull (mergeTagged (x :: xs) (y :: ys)))).positions) := by
    by_cases hxy : x ≤ y
    · have hMc : mergeTagged (x :: xs) (y :: ys) = (x, 0) :: mergeTagged xs (y :: ys) := by
        rw [mergeTagged, if_pos hxy]
      rw [show proximity (x :: xs) (y :: ys) =
          some ((proxLoop xs (y :: ys) x 0 ⟨none, []⟩).minProx,
            (proxLoop xs (y :: ys) x 0 ⟨none, []⟩).positions) from by
        simp only [proximity]
        rw [if_pos hxy]]
      rw [proxLoop_eq_foldl, hMc]
      rfl
    · have hMc : mergeTagged (x :: xs) (y :: ys) = (y, 1) :: mergeTagged (x :: xs) ys := by
        rw [mergeTagged, if_neg hxy]
      rw [show proximity (x :: xs) (y :: ys) =
          some ((proxLoop (x :: xs) ys y 1 ⟨none, []⟩).minProx,
            (proxLoop (x :: xs) ys y 1 ⟨none, []⟩).positions) from by
        simp only [proximity]
        rw [if_neg hxy]]
      rw [proxLoop_eq_foldl, hMc]
      rfl
  obtain ⟨pr₀, hpr₀, -⟩ := adjCross_reach _ hsM htagsM x y
    ((hmem0 x).mpr (List.mem_cons_self _ _)) ((hmem1 y).mpr (List.mem_cons_self _ _))
  cases hA : adjCrossFull (mergeTagged (x :: xs) (y :: ys)) with
  | nil =>
    rw [hA] at hpr₀
    cases hpr₀
  | cons q qs =>
  set m := (qs.map pairDist).foldl min (pairDist q) with hm
  have hfold : List.foldl crossStep ⟨none, []⟩ (q :: qs) =
      ⟨some m, (q :: qs).filter fun pr => pairDist pr = m⟩ :=
    foldl_crossStep_none [] q qs
  have hmlb : ∀ pr ∈ q :: qs, m ≤ pairDist pr := by
    intro pr hpr
    rcases List.mem_cons.mp hpr with h | h
    · rw [h]
      exact foldl_min_le_init _ _
    · exact foldl_min_le_mem _ _ _ (List.mem_map_of_mem _ h)
  have hmatt : ∃ pr ∈ q :: qs, pairDist pr = m := by
    rcases foldl_min_eq_or_mem (qs.map pairDist) (pairDist q) with h | h
    · exact ⟨q, List.mem_cons_self _ _, h.symm⟩
    · obtain ⟨pr, hpr, hprd⟩ := List.mem_map.mp h
      exact ⟨pr, List.mem_cons_of_mem _ hpr, hprd⟩
  have hglb : ∀ a ∈ x :: xs, ∀ b ∈ y :: ys, m ≤ (a - b).natAbs := by
    intro a ha b hb
    obtain ⟨pr, hpr, hle⟩ := adjCross_reach _ hsM htagsM a b
      ((hmem0 a).mpr ha) ((hmem1 b).mpr hb)
    rw [hA] at hpr
    exact (hmlb pr hpr).trans hle
  have hgatt : ∃ a ∈ x :: xs, ∃ b ∈ y :: ys, (a - b).natAbs = m := by
    obtain ⟨pr, hpr, hd⟩ := hmatt
    have hsound := adjCrossFull_sound _ pr (by rw [hA]; exact hpr)
    exact ⟨pr.1, (hmem0 pr.1).mp hsound.1, pr.2, (hmem1 pr.2).mp hsound.2,
      by rw [← hd]; rfl⟩
  have hpos : ∀ a b : ℤ,
      ((a, b) ∈ (q :: qs).filter fun pr => pairDist pr = m) ↔
        (a ∈ x :: xs ∧ b ∈ y :: ys ∧ (a - b).natAbs = m) := by
    intro a b
    rw [List.mem_filter]
    constructor
    · rintro ⟨hmem, hd⟩
      have hd' : pairDist (a, b) = m := of_decide_eq_true hd
      have hsound := adjCrossFull_sound _ (a, b) (by rw [hA]; exact hmem)
      exact ⟨(hmem0 a).mp hsound.1, (hmem1 b).mp hsound.2, by rw [← hd']; rfl⟩
    · rintro ⟨ha, hb, hd⟩
      have hmini : ∀ u v : ℤ, (u, 0) ∈ mergeTagged (x :: xs) (y :: ys) →
          (v, 1) ∈ mergeTagged (x :: xs) (y :: ys) →
          (a - b).natAbs ≤ (u - v).natAbs := by
        intro u v hu hv
        rw [hd]
        exact hglb u ((hmem0 u).mp hu) v ((hmem1 v).mp hv)
      have hcomp := adjCross_complete _ hsM htagsM a b
        ((hmem0 a).mpr ha) ((hmem1 b).mpr hb) hmini
      rw [hA] at hcomp
      refine ⟨hcomp, ?_⟩
      have hd2 : pairDist (a, b) = m := by
        rw [← hd]
        rfl
      exact decide_eq_true hd2
  have hne : ((q :: qs).filter fun pr => pairDist pr = m) ≠ [] := by
    obtain ⟨pr, hpr, hd⟩ := hmatt
    intro hcon
    have hin : pr ∈ (q :: qs).filter fun pr => pairDist pr = m :=
      List.mem_filter.mpr ⟨hpr, decide_eq_true hd⟩
    rw [hcon] at hin
    cases hin
  refine ⟨m, (q :: qs).filter fun pr => pairDist pr = m, ?_, hne, ?_, ?_,
    hglb, hgatt, hpos⟩
  · rw [hprox, hA, hfold]
  · exact hmlb
  · exact hmatt

/-- **C4.** For every two non-empty, sorted, duplicate-free position lists
`l0` and `l1`, `proximity` returns as its first component `some m`, where
`m` is the minimum absolute difference between adjacent merged elements
originating from different input lists (conjuncts 2-3), which equals the
minimum `|a - b|` over all cross-list pairs `a ∈ l0`, `b ∈ l1`
(conjuncts 4-5), and as its second component the complete list of pairs
`(element of l0, element of l1)` achieving that minimum, with all ties
retained (the final membership equivalence). -/
theorem proximity_min_cross_pairs (l0 l1 : List ℤ)
    (h0 : l0 ≠ []) (h1 : l1 ≠ [])
    (s0 : l0.Sorted (· < ·)) (s1 : l1.Sorted (· < ·)) :
    ∃ (m : ℕ) (ps : List (ℤ × ℤ)),
      proximity l0 l1 = some (some m, ps) ∧
      (∀ pr ∈ adjCrossFull (mergeTagged l0 l1), m ≤ pairDist pr) ∧
      (∃ pr ∈ adjCrossFull (mergeTagged l0 l1), pairDist pr = m) ∧
      (∀ a ∈ l0, ∀ b ∈ l1, m ≤ (a - b).natAbs) ∧
      (∃ a ∈ l0, ∃ b ∈ l1, (a - b).natAbs = m) ∧
      (∀ a b : ℤ, (a, b) ∈ ps ↔ a ∈ l0 ∧ b ∈ l1 ∧ (a - b).natAbs = m) := by
  obtain ⟨m, ps, hp, hne, c1, c2, c3, c4, c5⟩ :=
    proximity_spec l0 l1 h0 h1 (s0.imp le_of_lt) (s1.imp le_of_lt)
  exact ⟨m, ps, hp, c1, c2, c3, c4, c5⟩

/-- Witness for `proximity_min_cross_pairs`: the concrete instance
`list0 = [2, 10]`, `list1 = [5, 11]` of the claim, together with the
evaluation showing the minimum is `1` with the single pair `(10, 11)`. -/
theorem proximity_min_cross_pairs_witness :
    (∃ (m : ℕ) (ps : List (ℤ × ℤ)),
      proximity [2, 10] [5, 11] = some (some m, ps) ∧
      (∀ pr ∈ adjCrossFull (mergeTagged [2, 10] [5, 11]), m ≤ pairDist pr) ∧
      (∃ pr ∈ adjCrossFull (mergeTagged [2, 10] [5, 11]), pairDist pr = m) ∧
      (∀ a ∈ ([2, 10] : List ℤ), ∀ b ∈ ([5, 11] : List ℤ),
        m ≤ (a - b).natAbs) ∧
      (∃ a ∈ ([2, 10] : List ℤ), ∃ b ∈ ([5, 11] : List ℤ),
        (a - b).natAbs = m) ∧
      (∀ a b : ℤ, (a, b) ∈ ps ↔
        a ∈ ([2, 10] : List ℤ) ∧ b ∈ ([5, 11] : List ℤ) ∧ (a - b).natAbs = m)) ∧
    proximity [2, 10] [5, 11] = some (some 1, [(10, 11)]) :=
  ⟨proximity_min_cross_pairs [2, 10] [5, 11]
      (by decide) (by decide) (by decide) (by decide),
    by simp [proximity, proxLoop, proxCheck]⟩

/-- **C9.** For every call of `proximity` with two non-empty, sorted,
duplicate-free integer lists, the function returns a value (`some …`, i.e.
no `IndexError` from the unconditional `list_0[0]`/`list_1[0]` indexing, and
the loop terminates, which the totality of `proxLoop` witnesses), the
returned minimum is `some m` for an actual cross-list difference `m` — never
the `np.inf` sentinel it is initialised with, which our model renders as
`none` — and the returned list of minimising pairs is non-empty. -/
theorem proximity_safe (l0 l1 : List ℤ)
    (h0 : l0 ≠ []) (h1 : l1 ≠ [])
    (s0 : l0.Sorted (· < ·)) (s1 : l1.Sorted (· < ·)) :
    ∃ (m : ℕ) (ps : List (ℤ × ℤ)),
      proximity l0 l1 = some (some m, ps) ∧
      (∃ a ∈ l0, ∃ b ∈ l1, (a - b).natAbs = m) ∧
      ps ≠ [] := by
  obtain ⟨m, ps, hp, hne, _, _, _, c4, _⟩ :=
    proximity_spec l0 l1 h0 h1 (s0.imp le_of_lt) (s1.imp le_of_lt)
  exact ⟨m, ps, hp, c4, hne⟩

/-- Witness for `proximity_safe`: the concrete instance
`list0 = [1, 5]`, `list1 = [3]`, together with the evaluation showing the
result is `some (some 2, [(1, 3), (5, 3)])`. -/
theorem proximity_safe_witness :
    (∃ (m : ℕ) (ps : List (ℤ × ℤ)),
      proximity [1, 5] [3] = some (some m, ps) ∧
      (∃ a ∈ ([1, 5] : List ℤ), ∃ b ∈ ([3] : List ℤ), (a - b).natAbs = m) ∧
      ps ≠ []) ∧
    proximity [1, 5] [3] = some (some 2, [(1, 3), (5, 3)]) :=
  ⟨proximity_safe [1, 5] [3] (by decide) (by decide) (by decide) (by decide),
    by simp [proximity, proxLoop, proxCheck]⟩
